import Mathlib

/-!
# sockets-lib: socket I/O primitives, worker pool and server life cycle

A shallow embedding of `src/Socket.cpp`, `src/ThreadPool.cpp` and the server
state machine of `src/TcpServer.h`.

* Bytes are `Fin 256` (`uint8_t`); a pointer with a length is the list of the
  bytes it spans.
* The kernel is a scripted environment (`OS`): every system call that can block
  or fail takes its result from the head of `OS.future`.  A call made when the
  script is empty never returns (`Outcome.blocked`).
* A C++ exception is the constructor `Outcome.throw`.
* An uninitialised local that the code can read before assigning it is an
  explicit argument (its indeterminate value).
-/

namespace SocketsLib

/-! ## Machine integers -/

/-- Conversion to `size_t` (64 bit, unsigned): reduction modulo `2^64`. -/
def toSizeT (x : Int) : Int := x % 2 ^ 64

/-- Conversion to `ssize_t` (64 bit, two's complement). -/
def toSSizeT (x : Int) : Int :=
  if x % 2 ^ 64 < 2 ^ 63 then x % 2 ^ 64 else x % 2 ^ 64 - 2 ^ 64

/-- Conversion to `int` (32 bit, two's complement). -/
def toInt32 (x : Int) : Int :=
  if x % 2 ^ 32 < 2 ^ 31 then x % 2 ^ 32 else x % 2 ^ 32 - 2 ^ 32

/-! ## errno values (Linux) -/

def EINTR : Int := 4
def EBADF : Int := 9
def EPIPE : Int := 32
def ECONNRESET : Int := 104

/-! ## The environment: a scripted kernel -/

/-- One octet, `uint8_t`. -/
abbrev Byte := Fin 256

/-- The answer the kernel gives to one system call: the raw return value and the
`errno` it sets when that value is negative. -/
structure SysRet where
  ret : Int
  err : Int
deriving DecidableEq, Repr

/-- System calls the library makes (recorded in `OS.trace`). -/
inductive Syscall
  | send
  | recv
  | recvPeek
  | poll
  | fcntl
  | close
  | setsockopt
  | bind
deriving DecidableEq, Repr

/-- The part of the kernel and of the C runtime the socket code talks to. -/
structure OS where
  /-- Value of the thread's `errno`. -/
  errno : Int
  /-- Answers to the coming blocking system calls, in order. -/
  future : List SysRet
  /-- Bytes the peer has written to the connection that are not yet consumed. -/
  incoming : List Byte
  /-- Bytes the kernel has accepted from `send`, in order. -/
  outgoing : List Byte
  /-- Descriptors that are open in the process. -/
  openFds : List Int
  /-- System calls made so far, oldest first. -/
  trace : List Syscall
deriving DecidableEq, Repr

/-- Exceptions thrown by `Socket.cpp`.  `SendException`, `RecvException`,
`SocketConnectionClosedException` and `TimeoutException` are subclasses of
`SocketException`; `invalid_argument` and `overflow_error` are the standard
library classes and are not. -/
inductive Exn
  | SocketException
  | SendException
  | RecvException
  | SocketConnectionClosedException
  | TimeoutException
  | invalid_argument
  | overflow_error
deriving DecidableEq, Repr

/-- Whether `catch (SocketException &)` catches the exception. -/
def Exn.isSocketException : Exn → Bool
  | .invalid_argument => false
  | .overflow_error => false
  | _ => true

/-- How a call ends. -/
inductive Outcome (α : Type)
  /-- Normal return with a value. -/
  | ret (a : α) (os : OS)
  /-- An exception leaves the function. -/
  | throw (e : Exn) (os : OS)
  /-- The kernel never answers: the call does not return. -/
  | blocked
deriving DecidableEq, Repr

/-- The call `send(fd, data, data.length, MSG_NOSIGNAL)`: a negative answer is a
failure (`-1`, `errno` set); otherwise the kernel accepts at most
`data.length` bytes, the first ones of `data`. -/
def sysSend (os : OS) (data : List Byte) : Option (Int × OS) :=
  match os.future with
  | [] => none
  | r :: rest =>
    if r.ret < 0 then
      some (-1, { os with errno := r.err, future := rest, trace := os.trace ++ [Syscall.send] })
    else
      let k := min r.ret.toNat data.length
      some ((k : Int), { os with future := rest, outgoing := os.outgoing ++ data.take k,
                                 trace := os.trace ++ [Syscall.send] })

/-- The call `recv(fd, buf, len, flags)` with `flags` either `0` or `MSG_PEEK`:
a negative answer is a failure; otherwise the kernel delivers the first
`min answer len` unread bytes (none when the stream is exhausted or the answer
is `0`: the peer has closed) and, unless peeking, removes them from the
stream. -/
def sysRecv (os : OS) (len : Nat) (peek : Bool) : Option (Int × List Byte × OS) :=
  match os.future with
  | [] => none
  | r :: rest =>
    let call := if peek then Syscall.recvPeek else Syscall.recv
    if r.ret < 0 then
      some (-1, [], { os with errno := r.err, future := rest, trace := os.trace ++ [call] })
    else
      let bytes := os.incoming.take (min r.ret.toNat len)
      some ((bytes.length : Int), bytes,
        { os with future := rest,
                  incoming := if peek then os.incoming else os.incoming.drop bytes.length,
                  trace := os.trace ++ [call] })

/-- The call `poll(&pfd, 1, ms)` on the socket: `-1` on failure, `0` on timeout,
`1` when the descriptor is ready. -/
def sysPoll (os : OS) : Option (Int × OS) :=
  match os.future with
  | [] => none
  | r :: rest =>
    if r.ret < 0 then
      some (-1, { os with errno := r.err, future := rest, trace := os.trace ++ [Syscall.poll] })
    else
      some (if r.ret = 0 then 0 else 1,
        { os with future := rest, trace := os.trace ++ [Syscall.poll] })

/-- The call `fcntl(fd, F_GETFD)`: the descriptor flags of an open descriptor,
`-1` with `EBADF` otherwise. -/
def sysFcntlGetFd (os : OS) (fd : Int) : Int × OS :=
  if fd ∈ os.openFds then
    (0, { os with trace := os.trace ++ [Syscall.fcntl] })
  else
    (-1, { os with errno := EBADF, trace := os.trace ++ [Syscall.fcntl] })

/-- The call `close(fd)`.  On a descriptor that is not open it fails with
`EBADF`.  On an open descriptor Linux always releases the descriptor, also when
it reports a failure (`EINTR`, `EIO`). -/
def sysClose (os : OS) (fd : Int) : Option (Int × OS) :=
  if fd ∈ os.openFds then
    match os.future with
    | [] => none
    | r :: rest =>
      let os1 := { os with future := rest, openFds := os.openFds.filter (fun d => d ≠ fd),
                           trace := os.trace ++ [Syscall.close] }
      if r.ret < 0 then some (-1, { os1 with errno := r.err }) else some (0, os1)
  else
    some (-1, { os with errno := EBADF, trace := os.trace ++ [Syscall.close] })

/-- A call that does not block but may fail (`setsockopt`, `bind`): `0`, or `-1`
with `errno` set. -/
def sysSimple (call : Syscall) (os : OS) : Option (Int × OS) :=
  match os.future with
  | [] => none
  | r :: rest =>
    if r.ret < 0 then
      some (-1, { os with errno := r.err, future := rest, trace := os.trace ++ [call] })
    else
      some (0, { os with future := rest, trace := os.trace ++ [call] })

/-! ## Socket -/

/-- Modelled from the spec: `Address.h` is not among the sources; an endpoint is
a host and a port. -/
structure Address where
  host : Nat
  port : Nat
deriving DecidableEq, Repr

/-- The data members of `class Socket` (the three mutexes guard against other
threads and carry no data). -/
structure Socket where
  socket_descriptor : Int
  boundAddress : Option Address
  connectedAddress : Option Address
  timeout : Int
deriving DecidableEq, Repr

/-- `Socket::IsValidDescriptor`:
`(fcntl(socket_descriptor, F_GETFD) != -1) || (errno != EBADF)`. -/
def Socket.IsValidDescriptor (s : Socket) (os : OS) : Bool × OS :=
  let r := sysFcntlGetFd os s.socket_descriptor
  (r.1 ≠ -1 || r.2.errno ≠ EBADF, r.2)

/-- `Socket::Close`. -/
def Socket.Close (s : Socket) (os : OS) : Outcome Unit :=
  let v := s.IsValidDescriptor os
  if v.1 then
    match sysClose v.2 s.socket_descriptor with
    | none => .blocked
    | some (r, os1) => if r < 0 then .throw .SocketException os1 else .ret () os1
  else
    .ret () v.2

/-- `Socket::Bind`.  A null `shared_ptr` is `none`.  The first component is the
socket object when the call ends, the second how it ends. -/
def Socket.Bind (s : Socket) (os : OS) (address : Option Address) : Socket × Outcome Unit :=
  match sysSimple .setsockopt os with
  | none => (s, .blocked)
  | some (r, os1) =>
    if r < 0 then (s, .throw .SocketException os1)
    else
      match address with
      | none => (s, .throw .invalid_argument os1)
      | some a =>
        match sysSimple .bind os1 with
        | none => (s, .blocked)
        | some (r2, os2) =>
          if r2 < 0 then (s, .throw .SocketException os2)
          else ({ s with boundAddress := some a }, .ret () os2)

/-- The code after the loop of `Socket::SendAll`: `if (n < 0) ...`. -/
def Socket.SendAll.finish (n : Int) (os : OS) : Outcome Unit :=
  if n < 0 then
    if os.errno = EPIPE ∨ os.errno = ECONNRESET then
      .throw .SocketConnectionClosedException os
    else .throw .SendException os
  else .ret () os

/-- The `while (bytesleft > 0)` loop of `Socket::SendAll(const uint8_t *, size_t)`
followed by `finish`.  `n` is the current value of the local `n`; `fuel` bounds
the number of iterations. -/
def Socket.SendAll.loop (buf : List Byte) :
    Nat → Nat → Nat → Int → OS → Outcome Unit
  | 0, _, _, _, _ => .blocked
  | fuel + 1, total, bytesleft, n, os =>
    if 0 < bytesleft then
      match sysSend os ((buf.drop total).take bytesleft) with
      | none => .blocked
      | some (r, os1) =>
        if r ≤ 0 then
          if r < 0 ∧ os1.errno = EINTR then
            -- n = 0; total += n; bytesleft -= n;
            Socket.SendAll.loop buf fuel total bytesleft 0 os1
          else
            -- n = -1; break;
            Socket.SendAll.finish (-1) os1
        else
          Socket.SendAll.loop buf fuel (total + r.toNat) (bytesleft - r.toNat) r os1
    else Socket.SendAll.finish n os

/-- `Socket::SendAll(const uint8_t *buf, size_t len)` on the `len` bytes `buf`.
The local `n` is declared without an initialiser and is read after the loop;
`n0` is its indeterminate initial value.  Every iteration makes one system
call, so `future.length + 1` iterations are never exceeded. -/
def Socket.SendAll (n0 : Int) (_s : Socket) (os : OS) (buf : List Byte) : Outcome Unit :=
  Socket.SendAll.loop buf (os.future.length + 1) 0 buf.length n0 os

/-- `Socket::ApplyRecvTimeout`. -/
def Socket.ApplyRecvTimeout (s : Socket) (os : OS) : Outcome Unit :=
  if 0 < s.timeout then
    match sysPoll os with
    | none => .blocked
    | some (n, os1) =>
      if n = 0 then .throw .TimeoutException os1
      else if n = -1 then .throw .RecvException os1
      else .ret () os1
  else .ret () os

/-- `Socket::RecvTimeoutWrapper(buf, len, flags)`: the result of `recv` and the
bytes it stored at `buf`.  One `recv` moves fewer than `2^31` bytes, so the
conversion of its result to `int` keeps the value. -/
def Socket.RecvTimeoutWrapper (s : Socket) (os : OS) (len : Nat) (peek : Bool) :
    Outcome (Int × List Byte) :=
  match s.ApplyRecvTimeout os with
  | .blocked => .blocked
  | .throw e os1 => .throw e os1
  | .ret _ os1 =>
    match sysRecv os1 len peek with
    | none => .blocked
    | some (n, bytes, os2) => .ret (n, bytes) os2

/-- Store `bytes` at offset `off` of the buffer `buf`. -/
def writeAt (buf : List Byte) (off : Nat) (bytes : List Byte) : List Byte :=
  buf.take off ++ bytes ++ buf.drop (off + bytes.length)

/-- The code after the loop of `Socket::RecvAll(uint8_t *, size_t)`. -/
def Socket.RecvAll.finish (n : Int) (buf : List Byte) (os : OS) : Outcome (List Byte) :=
  if n < 0 then .throw .RecvException os
  else if n = 0 then .throw .SocketConnectionClosedException os
  else .ret buf os

/-- The `while (bytesleft > 0)` loop of `Socket::RecvAll(uint8_t *, size_t)`
followed by `finish`.  The destination `buf + total` of the source is offset
`off + total` of the enclosing buffer `buf`, which is the value returned. -/
def Socket.RecvAll.loop (s : Socket) (off : Nat) :
    Nat → List Byte → Nat → Nat → Int → OS → Outcome (List Byte)
  | 0, _, _, _, _, _ => .blocked
  | fuel + 1, buf, total, bytesleft, n, os =>
    if 0 < bytesleft then
      match s.RecvTimeoutWrapper os bytesleft false with
      | .blocked => .blocked
      | .throw e os1 => .throw e os1
      | .ret (r, bytes) os1 =>
        if r < 0 then
          if os1.errno = EINTR then
            -- n = 0; total += n; bytesleft -= n;
            Socket.RecvAll.loop s off fuel buf total bytesleft 0 os1
          else
            -- n = -1; break;
            Socket.RecvAll.finish (-1) buf os1
        else if r = 0 then
          -- break;
          Socket.RecvAll.finish 0 buf os1
        else
          Socket.RecvAll.loop s off fuel (writeAt buf (off + total) bytes)
            (total + r.toNat) (bytesleft - r.toNat) r os1
    else Socket.RecvAll.finish n buf os

/-- `Socket::RecvAll(uint8_t *buf, size_t len)`, writing at offset `off` of the
enclosing buffer.  The local `n` is assigned by the first iteration before it
is read, because `len > 0` when the loop is entered. -/
def Socket.RecvAllBuf (s : Socket) (os : OS) (buf : List Byte) (off len : Nat) :
    Outcome (List Byte) :=
  if len = 0 then .ret buf os
  else Socket.RecvAll.loop s off (os.future.length + 1) buf 0 len 0 os

/-- `Socket::RecvAll(size_t len)`: the vector overload. -/
def Socket.RecvAll (s : Socket) (os : OS) (len : Nat) : Outcome (List Byte) :=
  s.RecvAllBuf os (List.replicate len 0) 0 len

/-- The `for` loop of `Socket::IsContainPattern` on the bytes not yet visited:
`i` is the index of the next byte, `j` the number of pattern bytes matched. -/
def Socket.IsContainPattern.scan (pattern : List Byte) : List Byte → Nat → Nat → Option Nat
  | [], _, _ => none
  | b :: rest, i, j =>
    if pattern[j]? = some b then
      if j = pattern.length - 1 then some i
      else Socket.IsContainPattern.scan pattern rest (i + 1) (j + 1)
    else Socket.IsContainPattern.scan pattern rest (i + 1) 0

/-- `Socket::IsContainPattern(buf, len, pattern, patternlen)` on the spans
`buf[0 .. len)` and `pattern[0 .. patternlen)`.  The index found is a `size_t`
returned as `int`. -/
def Socket.IsContainPattern (buf pattern : List Byte) : Int :=
  if buf.length < pattern.length then -1
  else if buf.length = 0 ∧ pattern.length = 0 then -1
  else if pattern.length = 0 then -1
  else
    match Socket.IsContainPattern.scan pattern buf 0 0 with
    | some i => toInt32 i
    | none => -1

/-- The code after the loop of `Socket::RecvUntil`; the result is the buffer and
the value stored in `*len`. -/
def Socket.RecvUntil.finish (n : Int) (buf : List Byte) (total : Nat) (os : OS) :
    Outcome (List Byte × Nat) :=
  if n < 0 then .throw .RecvException os
  else if n = 0 then .throw .SocketConnectionClosedException os
  else .ret (buf, total) os

/-- The `do ... while (patternidx < 0)` loop of
`Socket::RecvUntil(uint8_t *, size_t, const uint8_t *, size_t, size_t *)`
followed by `finish`.  Buffer sizes are below `2^63`, so `total` and
`bytesleft` are kept as unbounded integers; the expression
`patternidx - (total - 1)` is evaluated in `size_t` and stored in `ssize_t`
as the source does. -/
def Socket.RecvUntil.loop (s : Socket) (pattern : List Byte) :
    Nat → List Byte → Nat → Int → Int → OS → Outcome (List Byte × Nat)
  | 0, _, _, _, _, _ => .blocked
  | fuel + 1, buf, total, bytesleft, patternidx, os =>
    if bytesleft ≤ 0 then .throw .overflow_error os
    else
      match s.RecvTimeoutWrapper os bytesleft.toNat true with
      | .blocked => .blocked
      | .throw e os1 => .throw e os1
      | .ret (r, bytes) os1 =>
        if r < 0 then
          if os1.errno = EINTR then
            -- n = 0; the block `if (n > 0)` is skipped; total += n; bytesleft -= n;
            if patternidx < 0 then
              Socket.RecvUntil.loop s pattern fuel buf total bytesleft patternidx os1
            else Socket.RecvUntil.finish 0 buf total os1
          else
            -- n = -1; break;
            Socket.RecvUntil.finish (-1) buf total os1
        else if r = 0 then
          -- break;
          Socket.RecvUntil.finish 0 buf total os1
        else
          let buf1 := writeAt buf total bytes
          let patternidx1 := Socket.IsContainPattern (buf1.take (total + r.toNat)) pattern
          if patternidx1 < 0 then
            match s.RecvAllBuf os1 buf1 total r.toNat with
            | .blocked => .blocked
            | .throw e os2 => .throw e os2
            | .ret buf2 os2 =>
              -- total += n; bytesleft -= n; while (patternidx < 0)
              Socket.RecvUntil.loop s pattern fuel buf2 (total + r.toNat) (bytesleft - r)
                patternidx1 os2
          else
            let n := toSSizeT (toSizeT (toSizeT patternidx1 - toSizeT ((total : Int) - 1)))
            match s.RecvAllBuf os1 buf1 total (toSizeT n).toNat with
            | .blocked => .blocked
            | .throw e os2 => .throw e os2
            | .ret buf2 os2 =>
              -- total += n; bytesleft -= n; the loop ends
              Socket.RecvUntil.finish n buf2 (toSizeT ((total : Int) + n)).toNat os2

/-- `Socket::RecvUntil(uint8_t *buf, size_t buflen, pattern, patternlen, size_t *len)`.
The local `patternidx` is declared without an initialiser and is read by the
loop test when the first `recv` is interrupted; `patternidx0` is its
indeterminate initial value. -/
def Socket.RecvUntilBuf (patternidx0 : Int) (s : Socket) (os : OS) (buf pattern : List Byte) :
    Outcome (List Byte × Nat) :=
  Socket.RecvUntil.loop s pattern (os.future.length + 1) buf 0 (buf.length : Int) patternidx0 os

/-- `Socket::RecvUntil(const std::vector<uint8_t> &pattern, size_t maxlen)`:
a zero-filled vector of `maxlen` bytes is filled and resized to the length
found. -/
def Socket.RecvUntil (patternidx0 : Int) (s : Socket) (os : OS) (pattern : List Byte)
    (maxlen : Nat) : Outcome (List Byte) :=
  match s.RecvUntilBuf patternidx0 os (List.replicate maxlen 0) pattern with
  | .blocked => .blocked
  | .throw e os1 => .throw e os1
  | .ret (buf, len) os1 => .ret (buf.take len) os1


/-! ## ThreadPool -/

/-- Where a worker thread stands in the lambda of `createThreadPool`. -/
inductive Worker
  /-- At `cond.wait`, the mutex not held. -/
  | waiting
  /-- Past the critical section with the task it dequeued, before `task()` ends. -/
  | running (task : Nat)
  /-- Out of the loop through `break`. -/
  | exited
deriving DecidableEq, Repr

/-- The members of `class ThreadPool` together with the history needed to state
what has been executed.  Tasks are numbered in the order of submission. -/
structure ThreadPool where
  halted : Bool
  task_queue : List Nat
  workers : List Worker
  /-- Number of calls of `SubmitTask` so far: the number of the next task. -/
  submitted : Nat
  /-- Tasks whose call `task()` has ended, oldest first. -/
  executed : List Nat
  /-- Number of tasks submitted when `Shutdown()` was called. -/
  shutdownAt : Option Nat
  /-- Whether `Shutdown()` has returned. -/
  shutdownReturned : Bool
deriving DecidableEq, Repr

/-- Atomic steps of the pool: the critical sections and the calls between them. -/
inductive PoolAction
  /-- `SubmitTask(task)`. -/
  | submit
  /-- Worker `i` leaves `cond.wait` and takes the front task. -/
  | dequeue (i : Nat)
  /-- Worker `i` completes `task()`. -/
  | run (i : Nat)
  /-- Worker `i` finds `halted && task_queue.empty()` and breaks. -/
  | exit (i : Nat)
  /-- `Shutdown()` is called: `halted = true; cond.notify_all()`. -/
  | shutdown
  /-- Every `workers[i].join()` has returned and `Shutdown()` returns. -/
  | shutdownReturn
deriving DecidableEq, Repr

/-- `ThreadPool::ThreadPool(int size)` with `createThreadPool(size)`: the loop
`for (int i = 0; i < size; ++i)` starts `size` workers, none when
`size <= 0`. -/
def ThreadPool.create (size : Int) : ThreadPool :=
  { halted := false, task_queue := [], workers := List.replicate size.toNat Worker.waiting,
    submitted := 0, executed := [], shutdownAt := none, shutdownReturned := false }

/-- One atomic step; `none` when the step is not enabled in the state. -/
def ThreadPool.step (p : ThreadPool) : PoolAction → Option ThreadPool
  | .submit =>
    some { p with task_queue := p.task_queue ++ [p.submitted], submitted := p.submitted + 1 }
  | .dequeue i =>
    match p.workers[i]?, p.task_queue with
    | some Worker.waiting, t :: q =>
      -- the wait predicate `halted || !task_queue.empty()` holds and the
      -- test `halted && task_queue.empty()` fails
      some { p with task_queue := q, workers := p.workers.set i (Worker.running t) }
    | _, _ => none
  | .run i =>
    match p.workers[i]? with
    | some (Worker.running t) =>
      some { p with executed := p.executed ++ [t], workers := p.workers.set i Worker.waiting }
    | _ => none
  | .exit i =>
    match p.workers[i]? with
    | some Worker.waiting =>
      if p.halted ∧ p.task_queue = [] then
        some { p with workers := p.workers.set i Worker.exited }
      else none
    | _ => none
  | .shutdown =>
    match p.shutdownAt with
    | none => some { p with halted := true, shutdownAt := some p.submitted }
    | some _ => none
  | .shutdownReturn =>
    if p.shutdownAt ≠ none ∧ p.shutdownReturned = false
        ∧ p.workers.all (fun w => w = Worker.exited) then
      some { p with shutdownReturned := true }
    else none

/-- An interleaving: the steps taken one after the other. -/
def ThreadPool.run (p : ThreadPool) : List PoolAction → Option ThreadPool
  | [] => some p
  | a :: rest =>
    match p.step a with
    | none => none
    | some q => ThreadPool.run q rest

/-! ## TcpServer -/

/-- Modelled from the spec: `TcpServer.cpp` is not among the sources.  The
exception `TcpServerException` with its message. -/
structure TcpServerException where
  msg : String
deriving DecidableEq, Repr

/-- Modelled from the spec: `TcpServer.cpp` is not among the sources.  The state
of a server: the flags `listening` and `halted` of `TcpServer.h`, the port and
the address of the listen session, the pool size and the client registry. -/
structure TcpServer where
  listening : Bool
  halted : Bool
  port : Nat
  ip : String
  tpSize : Int
  clients : List Nat
deriving DecidableEq, Repr

/-- Modelled from the spec: `TcpServer.cpp` is not among the sources.
`Listen(ip, port)`: while listening it fails with "Already listening" and
performs no state change; otherwise it binds and listens on the socket
(`bindOk` tells whether the socket calls succeed) and flips to Listening.  The
first component is the server when the call ends. -/
def TcpServer.Listen (srv : TcpServer) (ip : String) (port : Nat) (bindOk : Bool) :
    TcpServer × Except (TcpServerException ⊕ Exn) Unit :=
  if srv.listening then
    (srv, .error (.inl ⟨"Already listening"⟩))
  else if bindOk then
    ({ srv with listening := true, port := port, ip := ip }, .ok ())
  else
    (srv, .error (.inr .SocketException))

/-- Modelled from the spec: `TcpServer.cpp` is not among the sources.
`IsListening()` reads the flag. -/
def TcpServer.IsListening (srv : TcpServer) : Bool := srv.listening

/-! ## Functional descriptions of the transfer loops -/

/-- Apply a function to the value of a normal return. -/
def Outcome.map {α β : Type} (f : α → β) : Outcome α → Outcome β
  | .ret a os => .ret (f a) os
  | .throw e os => .throw e os
  | .blocked => .blocked

/-- What `SendAll` does with the bytes `data` that remain to be sent, one
kernel answer at a time: an `EINTR` failure sends the same bytes again, any
other failure or an answer `0` ends in the error chosen by `errno`, a partial
transfer goes on with the rest, a complete one returns. -/
def Socket.SendAll.steps : Nat → List Byte → OS → Outcome Unit
  | 0, _, _ => .blocked
  | fuel + 1, data, os =>
    match sysSend os data with
    | none => .blocked
    | some (r, os1) =>
      if r < 0 then
        if os1.errno = EINTR then Socket.SendAll.steps fuel data os1
        else Socket.SendAll.finish (-1) os1
      else if r = 0 then Socket.SendAll.finish (-1) os1
      else if data.length ≤ r.toNat then .ret () os1
      else Socket.SendAll.steps fuel (data.drop r.toNat) os1

/-- What `RecvAll` does to obtain `need` more bytes, one `RecvTimeoutWrapper`
call at a time; the value is the bytes received. -/
def Socket.RecvAll.steps (s : Socket) : Nat → Nat → OS → Outcome (List Byte)
  | 0, _, _ => .blocked
  | fuel + 1, need, os =>
    match s.RecvTimeoutWrapper os need false with
    | .blocked => .blocked
    | .throw e os1 => .throw e os1
    | .ret (r, bytes) os1 =>
      if r < 0 then
        if os1.errno = EINTR then Socket.RecvAll.steps s fuel need os1
        else .throw .RecvException os1
      else if r = 0 then .throw .SocketConnectionClosedException os1
      else if need ≤ r.toNat then .ret bytes os1
      else (Socket.RecvAll.steps s fuel (need - r.toNat) os1).map (fun d => bytes ++ d)

/-- The answer transfers at least one byte. -/
def SysRet.transfers (r : SysRet) : Bool := decide (0 < r.ret)

/-- The answer is a failure with `EINTR`. -/
def SysRet.interrupted (r : SysRet) : Bool := decide (r.ret < 0 ∧ r.err = EINTR)

/-- A fragmentation of a transfer of `len` bytes: every answer of the kernel
either transfers at least one byte or is an `EINTR` failure, and there are at
least `len` answers of the first kind. -/
def Fragmentation (len : Nat) (future : List SysRet) : Prop :=
  (∀ r ∈ future, r.transfers = true ∨ r.interrupted = true)
    ∧ len ≤ future.countP SysRet.transfers

/-! ## Specification-side definitions and example data -/

/-- Substring search in the words of the specification: the smallest index `i`
such that `buf[i-m+1 .. i]` equals `pattern` (`m` the pattern length), `-1` when
the pattern occurs nowhere in `buf`. -/
def firstOccurrenceEnd (buf pattern : List Byte) : Int :=
  match (List.range buf.length).find? (fun i =>
      decide (pattern.length ≤ i + 1 ∧
        (buf.drop (i + 1 - pattern.length)).take pattern.length = pattern)) with
  | some i => (i : Int)
  | none => -1

/-- Number of `close` system calls made so far. -/
def closeCalls (os : OS) : Nat := os.trace.count Syscall.close

/-- A stream socket on descriptor 3 as the constructor leaves it. -/
def exampleSocket : Socket :=
  { socket_descriptor := 3, boundAddress := none, connectedAddress := none, timeout := 0 }

/-- A kernel state in which descriptor 3 is open, with the given `errno`, script
and unread stream. -/
def exampleOS (errno : Int) (future : List SysRet) (incoming : List Byte) : OS :=
  { errno := errno, future := future, incoming := incoming, outgoing := [],
    openFds := [3], trace := [] }

/-- A server that is listening on port 8090. -/
def exampleServer : TcpServer :=
  { listening := true, halted := false, port := 8090, ip := "0.0.0.0", tpSize := 20,
    clients := [] }

/-- The invariant of the pool with `n` workers: the number of workers is fixed;
every task submitted so far is in exactly one place (the queue, the hands of a
worker, or the executed list) and no other task is anywhere; `Shutdown()` has
set `halted` and recorded how many tasks preceded it; once a worker has exited
the queue holds only tasks submitted after `Shutdown()` was called; and
`Shutdown()` has returned only if every worker has exited. -/
def ThreadPool.Inv (n : Nat) (p : ThreadPool) : Prop :=
  p.workers.length = n
  ∧ (∀ t, p.task_queue.count t + p.workers.count (Worker.running t) + p.executed.count t
        = if t < p.submitted then 1 else 0)
  ∧ ((∀ k, p.shutdownAt = some k → k ≤ p.submitted ∧ p.halted = true)
      ∧ (p.halted = true → ∃ k, p.shutdownAt = some k))
  ∧ (Worker.exited ∈ p.workers → ∃ k, p.shutdownAt = some k ∧ ∀ t ∈ p.task_queue, k ≤ t)
  ∧ (p.shutdownReturned = true → ∀ w ∈ p.workers, w = Worker.exited)

/-! ## SendAll on an empty payload -/

/-- C1 (failing input): `SendAll` on the empty payload makes no system call and
reads the local `n` that was never assigned; when that indeterminate value is
negative the call throws (`SendException`, or `SocketConnectionClosedException`
when `errno` happens to be `EPIPE`), whereas `RecvAll(0)` returns at once. -/
theorem SendAll_empty_payload_throws :
    Socket.SendAll (-1) exampleSocket (exampleOS 0 [] []) []
        = .throw .SendException (exampleOS 0 [] [])
      ∧ Socket.SendAll (-1) exampleSocket (exampleOS EPIPE [] []) []
        = .throw .SocketConnectionClosedException (exampleOS EPIPE [] [])
      ∧ Socket.RecvAll exampleSocket (exampleOS 0 [] []) 0 = .ret [] (exampleOS 0 [] []) := by
  decide

/-! ## The pattern scan on concrete inputs -/

/-- C10 (failing input): on the buffer "aab" and the pattern "ab" the scan of
`IsContainPattern` answers `-1`, although the pattern occurs in the buffer and
its first occurrence ends at index 2. -/
theorem IsContainPattern_misses_occurrence :
    Socket.IsContainPattern [97, 97, 98] [97, 98] = -1
      ∧ firstOccurrenceEnd [97, 97, 98] [97, 98] = 2
      ∧ ([97, 98] : List Byte) <:+: [97, 97, 98] := by
  refine ⟨by decide, by decide, ?_⟩
  exact ⟨[97], [], by decide⟩

/-- C2 (failing input): with the pattern "PONG", the stream "PPONGyyy" and
`maxlen = 8`, `RecvUntil` does not return "PPONG": it consumes the whole stream
and throws `overflow_error`.  On the stream "xxPONGyyy" of the specification
it returns "xxPONG" and leaves "yyy" unread. -/
theorem RecvUntil_misses_pattern_after_repeated_byte :
    Socket.RecvUntil (-1) exampleSocket
        (exampleOS 0 [⟨8, 0⟩, ⟨8, 0⟩] [80, 80, 79, 78, 71, 121, 121, 121]) [80, 79, 78, 71] 8
      = .throw .overflow_error
          { exampleOS 0 [] [] with trace := [Syscall.recvPeek, Syscall.recv] }
    ∧ Socket.RecvUntil (-1) exampleSocket
        (exampleOS 0 [⟨9, 0⟩, ⟨9, 0⟩] [120, 120, 80, 79, 78, 71, 121, 121, 121])
        [80, 79, 78, 71] 9
      = .ret [120, 120, 80, 79, 78, 71]
          { exampleOS 0 [] [121, 121, 121] with trace := [Syscall.recvPeek, Syscall.recv] } := by
  decide

/-! ## Bind -/

/-- C9 (counterexample): `Bind` with a null address, after a successful
`setsockopt`, throws `std::invalid_argument`, which is not a
`SocketException`. -/
theorem Bind_null_address_not_SocketException :
    Socket.Bind exampleSocket (exampleOS 0 [⟨0, 0⟩] []) none
        = (exampleSocket, .throw .invalid_argument
            { exampleOS 0 [] [] with trace := [Syscall.setsockopt] })
      ∧ Exn.invalid_argument.isSocketException = false := by
  decide

/-- C9 (amended): once the kernel has answered `setsockopt` with `r`, `Bind`
throws `SocketException` when `setsockopt` fails, `std::invalid_argument` when
`setsockopt` succeeds and the address is null, `SocketException` when the
address is given and the `bind` call fails; in all these cases the socket
object, so its bound address, is unchanged.  When both calls succeed the bound
address is the given address and nothing else in the socket changes. -/
theorem Bind_outcome (s : Socket) (os : OS) (address : Option Address)
    (r : SysRet) (rest : List SysRet) (hfut : os.future = r :: rest) :
    (r.ret < 0 → ∃ os1, s.Bind os address = (s, .throw .SocketException os1))
    ∧ (0 ≤ r.ret → address = none →
        ∃ os1, s.Bind os address = (s, .throw .invalid_argument os1))
    ∧ (∀ a r2 rest2, 0 ≤ r.ret → address = some a → rest = r2 :: rest2 → r2.ret < 0 →
        ∃ os1, s.Bind os address = (s, .throw .SocketException os1))
    ∧ (∀ a r2 rest2, 0 ≤ r.ret → address = some a → rest = r2 :: rest2 → 0 ≤ r2.ret →
        ∃ os1, s.Bind os address = ({ s with boundAddress := address }, .ret () os1))
    ∧ (∀ e os1, (s.Bind os address).2 = .throw e os1 → (s.Bind os address).1 = s)
    ∧ ((s.Bind os address).2 = .blocked → (s.Bind os address).1 = s) := by
  have hnot : ∀ x : Int, 0 ≤ x → ¬ x < 0 := fun x hx => not_lt.mpr hx
  refine ⟨?_, ?_, ?_, ?_, ?_, ?_⟩
  · intro hr
    exact ⟨{ os with errno := r.err, future := rest,
                     trace := os.trace ++ [Syscall.setsockopt] },
      by simp [Socket.Bind, sysSimple, hfut, hr]⟩
  · intro hr ha
    subst ha
    exact ⟨{ os with future := rest, trace := os.trace ++ [Syscall.setsockopt] },
      by simp [Socket.Bind, sysSimple, hfut, hnot _ hr]⟩
  · intro a r2 rest2 hr ha hrest hr2
    subst ha hrest
    exact ⟨{ os with errno := r2.err, future := rest2,
                     trace := os.trace ++ [Syscall.setsockopt, Syscall.bind] },
      by simp [Socket.Bind, sysSimple, hfut, hnot _ hr, hr2]⟩
  · intro a r2 rest2 hr ha hrest hr2
    subst ha hrest
    exact ⟨{ os with future := rest2,
                     trace := os.trace ++ [Syscall.setsockopt, Syscall.bind] },
      by simp [Socket.Bind, sysSimple, hfut, hnot _ hr, hnot _ hr2]⟩
  · intro e os1
    simp only [Socket.Bind, sysSimple, hfut]
    split_ifs <;> cases address <;> simp
    · cases rest <;> simp
      split_ifs <;> simp
  · simp only [Socket.Bind, sysSimple, hfut]
    split_ifs <;> cases address <;> simp
    · cases rest <;> simp
      split_ifs <;> simp

/-- Witness of `Bind_outcome`: with both calls answered `0`, the address
127.0.0.1:8090 becomes the bound address. -/
theorem Bind_outcome_witness :
    ∃ os1, Socket.Bind exampleSocket (exampleOS 0 [⟨0, 0⟩, ⟨0, 0⟩] []) (some ⟨2130706433, 8090⟩)
      = ({ exampleSocket with boundAddress := some ⟨2130706433, 8090⟩ }, .ret () os1) :=
  (Bind_outcome exampleSocket (exampleOS 0 [⟨0, 0⟩, ⟨0, 0⟩] []) (some ⟨2130706433, 8090⟩)
    ⟨0, 0⟩ [⟨0, 0⟩] rfl).2.2.2.1 ⟨2130706433, 8090⟩ ⟨0, 0⟩ [] (by decide) rfl rfl (by decide)

/-! ## Listen on a listening server -/

/-- C8: on a server that is listening, `Listen` fails with the server exception
whose message is "Already listening", the server object is unchanged, and
`IsListening()` is still true afterwards. -/
theorem Listen_while_listening (srv : TcpServer) (ip : String) (port : Nat) (bindOk : Bool)
    (h : srv.IsListening = true) :
    srv.Listen ip port bindOk = (srv, .error (.inl ⟨"Already listening"⟩))
      ∧ (srv.Listen ip port bindOk).1.IsListening = true := by
  have h1 : srv.listening = true := h
  simp [TcpServer.Listen, TcpServer.IsListening, h1]

/-- Witness of `Listen_while_listening` on `exampleServer`. -/
theorem Listen_while_listening_witness :
    exampleServer.IsListening = true
      ∧ exampleServer.Listen "0.0.0.0" 8090 true
          = (exampleServer, .error (.inl ⟨"Already listening"⟩)) :=
  ⟨rfl, (Listen_while_listening exampleServer "0.0.0.0" 8090 true rfl).1⟩

/-! ## Close -/

/-- C6: on a socket whose descriptor is open, once the kernel answers the
`close` call, `Close()` returns or throws `SocketException`, having made one
`close` call that releases the descriptor; a second `Close()` then returns
without error and without a `close` call, and changes nothing but `errno` (set
by the failed `fcntl` probe) and the record of that probe.  In any state,
`Close()` throws only `SocketException`, and only when the descriptor is open
and the kernel answers the `close` call with a failure. -/
theorem Close_twice (s : Socket) (os : OS)
    (hopen : s.socket_descriptor ∈ os.openFds) (hans : os.future ≠ []) :
    (∃ os1, (s.Close os = .ret () os1 ∨ s.Close os = .throw .SocketException os1)
        ∧ closeCalls os1 = closeCalls os + 1
        ∧ s.socket_descriptor ∉ os1.openFds
        ∧ s.Close os1
            = .ret () { os1 with errno := EBADF, trace := os1.trace ++ [Syscall.fcntl] }
        ∧ closeCalls { os1 with errno := EBADF, trace := os1.trace ++ [Syscall.fcntl] }
            = closeCalls os + 1)
    ∧ (∀ (os0 : OS) (e : Exn) (os2 : OS), s.Close os0 = .throw e os2 →
        e = .SocketException ∧ s.socket_descriptor ∈ os0.openFds
          ∧ ∃ r rest, os0.future = r :: rest ∧ r.ret < 0) := by
  constructor
  · obtain ⟨r, rest, hfut⟩ := List.exists_cons_of_ne_nil hans
    by_cases hr : r.ret < 0
    · refine ⟨{ os with errno := r.err, future := rest,
                        openFds := os.openFds.filter (fun d => d ≠ s.socket_descriptor),
                        trace := os.trace ++ [Syscall.fcntl, Syscall.close] },
        Or.inr ?_, ?_, ?_, ?_, ?_⟩
      · simp [Socket.Close, Socket.IsValidDescriptor, sysFcntlGetFd, sysClose, hopen, hfut, hr]
      · simp [closeCalls, List.count_append]
      · simp
      · simp [Socket.Close, Socket.IsValidDescriptor, sysFcntlGetFd]
      · simp [closeCalls, List.count_append]
    · refine ⟨{ os with future := rest,
                        openFds := os.openFds.filter (fun d => d ≠ s.socket_descriptor),
                        trace := os.trace ++ [Syscall.fcntl, Syscall.close] },
        Or.inl ?_, ?_, ?_, ?_, ?_⟩
      · simp [Socket.Close, Socket.IsValidDescriptor, sysFcntlGetFd, sysClose, hopen, hfut, hr]
      · simp [closeCalls, List.count_append]
      · simp
      · simp [Socket.Close, Socket.IsValidDescriptor, sysFcntlGetFd]
      · simp [closeCalls, List.count_append]
  · intro os0 e os2 h
    by_cases hfd : s.socket_descriptor ∈ os0.openFds
    · cases hf : os0.future with
      | nil =>
        simp [Socket.Close, Socket.IsValidDescriptor, sysFcntlGetFd, sysClose, hfd, hf] at h
      | cons r rest =>
        by_cases hr : r.ret < 0
        · simp [Socket.Close, Socket.IsValidDescriptor, sysFcntlGetFd, sysClose, hfd, hf, hr] at h
          exact ⟨h.1.symm, hfd, r, rest, rfl, hr⟩
        · simp [Socket.Close, Socket.IsValidDescriptor, sysFcntlGetFd, sysClose, hfd, hf, hr] at h
    · simp [Socket.Close, Socket.IsValidDescriptor, sysFcntlGetFd, hfd] at h

/-- Witness of `Close_twice`: descriptor 3 is open and the kernel answers the
`close` call with `0`. -/
theorem Close_twice_witness :
    ∃ os1, (exampleSocket.Close (exampleOS 0 [⟨0, 0⟩] []) = .ret () os1
          ∨ exampleSocket.Close (exampleOS 0 [⟨0, 0⟩] []) = .throw .SocketException os1)
        ∧ closeCalls os1 = closeCalls (exampleOS 0 [⟨0, 0⟩] []) + 1
        ∧ exampleSocket.socket_descriptor ∉ os1.openFds
        ∧ exampleSocket.Close os1
            = .ret () { os1 with errno := EBADF, trace := os1.trace ++ [Syscall.fcntl] }
        ∧ closeCalls { os1 with errno := EBADF, trace := os1.trace ++ [Syscall.fcntl] }
            = closeCalls (exampleOS 0 [⟨0, 0⟩] []) + 1 :=
  (Close_twice exampleSocket (exampleOS 0 [⟨0, 0⟩] []) (by decide) (by decide)).1

/-! ## ThreadPool: graceful drain -/

/-- Replacing the worker at index `i` moves one unit of `count`. -/
theorem Worker.count_set_eq (l : List Worker) (i : Nat) (w w' b : Worker)
    (h : l[i]? = some w) :
    (l.set i w').count b + (if w = b then 1 else 0)
      = l.count b + (if w' = b then 1 else 0) := by
  obtain ⟨hi, hw⟩ := List.getElem?_eq_some_iff.mp h
  rw [List.count_set _ _ _ _ hi]
  have hle : (if l[i] == b then 1 else 0) ≤ l.count b := by
    by_cases hb : l[i] = b
    · have hmem : b ∈ l := hb ▸ List.getElem_mem hi
      have hpos := List.count_pos_iff.mpr hmem
      rw [if_pos (by simp [hb])]
      exact hpos
    · rw [if_neg (by simp [hb])]
      exact Nat.zero_le _
  simp only [beq_iff_eq, hw] at hle ⊢
  omega

/-- The invariant is preserved by every step. -/
theorem ThreadPool.Inv_step (n : Nat) (p q : ThreadPool) (a : PoolAction)
    (hinv : p.Inv n) (hstep : p.step a = some q) : q.Inv n := by
  obtain ⟨hlen, hcnt, hsd, hex, hret⟩ := hinv
  cases a with
  | submit =>
    simp only [ThreadPool.step, Option.some.injEq] at hstep
    subst hstep
    refine ⟨hlen, ?_, ?_, ?_, hret⟩
    · intro t
      have := hcnt t
      simp only [List.count_append, List.count_cons, List.count_nil, beq_iff_eq]
      by_cases h1 : p.submitted = t
      · subst h1; simp at this ⊢; omega
      · simp only [h1, if_false]
        split_ifs at this ⊢ <;> omega
    · refine ⟨?_, hsd.2⟩
      intro k hk
      obtain ⟨h1, h2⟩ := hsd.1 k hk
      exact ⟨Nat.le_succ_of_le h1, h2⟩
    · intro hmem
      obtain ⟨k, hk, hq⟩ := hex hmem
      refine ⟨k, hk, ?_⟩
      intro t ht
      simp only [List.mem_append, List.mem_singleton] at ht
      rcases ht with ht | ht
      · exact hq t ht
      · subst ht; exact (hsd.1 k hk).1
  | dequeue i =>
    simp only [ThreadPool.step] at hstep
    split at hstep
    · rename_i t0 q0 hw hq0
      simp only [Option.some.injEq] at hstep
      subst hstep
      refine ⟨by simpa using hlen, ?_, hsd, ?_, ?_⟩
      · intro t
        have h1 := hcnt t
        have h2 := Worker.count_set_eq p.workers i Worker.waiting (Worker.running t0)
          (Worker.running t) hw
        simp only [hq0, List.count_cons, beq_iff_eq] at h1
        simp only [Worker.running.injEq, reduceCtorEq, if_false] at h2
        simp only
        omega
      · intro hmem
        rcases List.mem_or_eq_of_mem_set hmem with h | h
        · obtain ⟨k, hk, hq⟩ := hex h
          exact ⟨k, hk, fun t ht => hq t (by simp [hq0, ht])⟩
        · cases h
      · intro hr
        have := hret hr _ (List.getElem?_mem hw)
        cases this
    · simp at hstep
  | run i =>
    simp only [ThreadPool.step] at hstep
    split at hstep
    · rename_i t0 hw
      simp only [Option.some.injEq] at hstep
      subst hstep
      refine ⟨by simpa using hlen, ?_, hsd, ?_, ?_⟩
      · intro t
        have h1 := hcnt t
        have h2 := Worker.count_set_eq p.workers i (Worker.running t0) Worker.waiting
          (Worker.running t) hw
        simp only [Worker.running.injEq, reduceCtorEq, if_false] at h2
        simp only [List.count_append, List.count_cons, List.count_nil, beq_iff_eq]
        omega
      · intro hmem
        rcases List.mem_or_eq_of_mem_set hmem with h | h
        · exact hex h
        · cases h
      · intro hr
        have := hret hr _ (List.getElem?_mem hw)
        cases this
    · simp at hstep
  | exit i =>
    simp only [ThreadPool.step] at hstep
    split at hstep
    · rename_i hw
      split_ifs at hstep with hg
      simp only [Option.some.injEq] at hstep
      subst hstep
      refine ⟨by simpa using hlen, ?_, hsd, ?_, ?_⟩
      · intro t
        have h1 := hcnt t
        have h2 := Worker.count_set_eq p.workers i Worker.waiting Worker.exited
          (Worker.running t) hw
        simp only [reduceCtorEq, if_false] at h2
        simp only
        omega
      · intro _
        obtain ⟨k, hk⟩ := hsd.2 hg.1
        exact ⟨k, hk, by simp [hg.2]⟩
      · intro hr
        have := hret hr _ (List.getElem?_mem hw)
        cases this
    · simp at hstep
  | shutdown =>
    simp only [ThreadPool.step] at hstep
    split at hstep
    · rename_i hnone
      simp only [Option.some.injEq] at hstep
      subst hstep
      refine ⟨hlen, hcnt, ?_, ?_, hret⟩
      · refine ⟨?_, fun _ => ⟨p.submitted, rfl⟩⟩
        intro k hk
        simp only [Option.some.injEq] at hk
        subst hk
        exact ⟨le_refl _, rfl⟩
      · intro hmem
        obtain ⟨k, hk, _⟩ := hex hmem
        rw [hnone] at hk
        cases hk
    · simp at hstep
  | shutdownReturn =>
    simp only [ThreadPool.step] at hstep
    split_ifs at hstep with hg
    simp only [Option.some.injEq] at hstep
    subst hstep
    refine ⟨hlen, hcnt, hsd, hex, ?_⟩
    intro _
    simpa using hg.2.2

/-- A freshly constructed pool satisfies the invariant. -/
theorem ThreadPool.Inv_create (size : Int) : (ThreadPool.create size).Inv size.toNat := by
  refine ⟨by simp [ThreadPool.create], ?_, ?_, ?_, ?_⟩
  · intro t
    simp only [ThreadPool.create, List.count_nil, Nat.not_lt_zero, if_false, Nat.add_zero,
      Nat.zero_add]
    exact List.count_eq_zero.mpr (by simp)
  · simp [ThreadPool.create]
  · simp [ThreadPool.create]
  · simp [ThreadPool.create]

/-- The invariant holds after every interleaving. -/
theorem ThreadPool.Inv_run (n : Nat) (acts : List PoolAction) :
    ∀ p q : ThreadPool, p.Inv n → p.run acts = some q → q.Inv n := by
  induction acts with
  | nil =>
    intro p q hinv hrun
    simp only [ThreadPool.run, Option.some.injEq] at hrun
    exact hrun ▸ hinv
  | cons a rest ih =>
    intro p q hinv hrun
    simp only [ThreadPool.run] at hrun
    cases hstep : p.step a with
    | none => simp [hstep] at hrun
    | some p1 =>
      rw [hstep] at hrun
      exact ih p1 q (ThreadPool.Inv_step n p p1 a hinv hstep) hrun

/-- C7 (counterexample): a pool constructed with size 0 has no worker;
`Shutdown()` returns at once while the task submitted before it is still in
the queue and has not been executed. -/
theorem ThreadPool_without_workers_drops_task :
    (ThreadPool.create 0).run [.submit, .shutdown, .shutdownReturn]
      = some { halted := true, task_queue := [0], workers := [], submitted := 1,
               executed := [], shutdownAt := some 1, shutdownReturned := true } := by
  decide

/-- C7 (amended): a worker exits only in a state where `halted` is set and the
task queue is empty; and in a pool constructed with at least one worker, after
every interleaving of submit, dequeue, run, exit and shutdown steps, no task
has been executed twice and, once `Shutdown()` has returned, every task
submitted before `Shutdown()` was called has been executed exactly once. -/
theorem ThreadPool_graceful_drain (size : Int) (acts : List PoolAction) (p : ThreadPool)
    (hsize : 0 < size) (hrun : (ThreadPool.create size).run acts = some p) :
    (∀ (q q1 : ThreadPool) (i : Nat), q.step (.exit i) = some q1 →
        q.halted = true ∧ q.task_queue = [])
    ∧ (∀ t, p.executed.count t ≤ 1)
    ∧ (p.shutdownReturned = true →
        ∃ k, p.shutdownAt = some k ∧ ∀ t, t < k → p.executed.count t = 1) := by
  obtain ⟨hlen, hcnt, hsd, hex, hret⟩ :=
    ThreadPool.Inv_run size.toNat acts _ p (ThreadPool.Inv_create size) hrun
  refine ⟨?_, ?_, ?_⟩
  · intro q q1 i hstep
    simp only [ThreadPool.step] at hstep
    split at hstep
    · split_ifs at hstep with hg
      exact ⟨hg.1, hg.2⟩
    · simp at hstep
  · intro t
    have := hcnt t
    split_ifs at this <;> omega
  · intro hr
    have hall := hret hr
    have hpos : 0 < p.workers.length := by omega
    obtain ⟨w, hw⟩ := List.exists_mem_of_length_pos hpos
    have hmem : Worker.exited ∈ p.workers := hall w hw ▸ hw
    obtain ⟨k, hk, hq⟩ := hex hmem
    refine ⟨k, hk, ?_⟩
    intro t ht
    have hle := (hsd.1 k hk).1
    have h1 := hcnt t
    rw [if_pos (by omega)] at h1
    have h2 : p.task_queue.count t = 0 :=
      List.count_eq_zero.mpr (fun hin => by have := hq t hin; omega)
    have h3 : p.workers.count (Worker.running t) = 0 :=
      List.count_eq_zero.mpr (fun hin => by have := hall _ hin; cases this)
    omega

/-- Witness of `ThreadPool_graceful_drain`: two workers, two tasks submitted
before `Shutdown()`; both have been executed once when it returns. -/
theorem ThreadPool_graceful_drain_witness :
    ∃ p, (ThreadPool.create 2).run [.submit, .submit, .dequeue 0, .shutdown, .dequeue 1,
            .run 1, .exit 1, .run 0, .exit 0, .shutdownReturn] = some p
      ∧ p.shutdownReturned = true
      ∧ ∃ k, p.shutdownAt = some k ∧ ∀ t, t < k → p.executed.count t = 1 :=
  ⟨{ halted := true, task_queue := [], workers := [Worker.exited, Worker.exited],
     submitted := 2, executed := [1, 0], shutdownAt := some 2, shutdownReturned := true },
   by decide, rfl,
   (ThreadPool_graceful_drain 2 [.submit, .submit, .dequeue 0, .shutdown, .dequeue 1,
      .run 1, .exit 1, .run 0, .exit 0, .shutdownReturn] _ (by decide) (by decide)).2.2 rfl⟩

/-! ## SendAll: classification of outcomes -/

/-- The loop of `SendAll` at offset `total` with `bytesleft` bytes to go behaves
as `steps` on the bytes that remain. -/
theorem Socket.SendAll.send_loop_eq_steps (buf : List Byte) :
    ∀ (fuel total bl : Nat) (n : Int) (os : OS),
      os.future.length < fuel → 0 < bl → total + bl ≤ buf.length →
      Socket.SendAll.loop buf fuel total bl n os
        = Socket.SendAll.steps fuel ((buf.drop total).take bl) os := by
  intro fuel
  induction fuel with
  | zero => intro total bl n os h; omega
  | succ fuel ih =>
    intro total bl n os hfuel hbl hlen
    have hdata : ((buf.drop total).take bl).length = bl := by
      simp only [List.length_take, List.length_drop]; omega
    rw [Socket.SendAll.loop, Socket.SendAll.steps, if_pos hbl]
    cases hf : os.future with
    | nil => simp [sysSend, hf]
    | cons r rest =>
      have hrest : rest.length < fuel := by simp [hf] at hfuel; omega
      by_cases hr : r.ret < 0
      · simp only [sysSend, hf, hr, if_true]
        by_cases he : r.err = EINTR
        · simp [he]
          exact ih total bl 0 _ hrest hbl hlen
        · simp [he]
      · simp only [sysSend, hf, hr, if_false, hdata]
        have hk : min r.ret.toNat bl ≤ bl := Nat.min_le_right _ _
        by_cases hz : min r.ret.toNat bl = 0
        · simp [hz]
        · have hpos : 0 < min r.ret.toNat bl := Nat.pos_of_ne_zero hz
          have h1 : ¬ ((min r.ret.toNat bl : Nat) : Int) ≤ 0 := by omega
          have h2 : ¬ ((min r.ret.toNat bl : Nat) : Int) < 0 := by omega
          have h3 : ¬ ((min r.ret.toNat bl : Nat) : Int) = 0 := by omega
          simp only [h1, h2, h3, if_false, Int.toNat_ofNat]
          by_cases hall : bl ≤ min r.ret.toNat bl
          · have hzero : bl - min r.ret.toNat bl = 0 := by omega
            rw [if_pos hall, hzero]
            obtain ⟨f, rfl⟩ : ∃ f, fuel = f + 1 := ⟨fuel - 1, by omega⟩
            simp [Socket.SendAll.loop, Socket.SendAll.finish, h2]
          · rw [if_neg hall]
            rw [ih (total + min r.ret.toNat bl) (bl - min r.ret.toNat bl) _ _ hrest
              (by omega) (by omega)]
            congr 1
            rw [List.drop_take, List.drop_drop]

/-- `SendAll` on a non-empty payload is `steps` on the whole payload. -/
theorem Socket.SendAll_eq_steps (n0 : Int) (s : Socket) (os : OS) (buf : List Byte)
    (hbuf : buf ≠ []) :
    Socket.SendAll n0 s os buf = Socket.SendAll.steps (os.future.length + 1) buf os := by
  have hpos : 0 < buf.length := List.length_pos.mpr hbuf
  rw [Socket.SendAll, Socket.SendAll.send_loop_eq_steps buf _ 0 buf.length n0 os (by omega) hpos
    (by omega)]
  simp

/-- What `steps` guarantees when it ends: the bytes accepted by the kernel are
a leading part of the data, all of it on a normal return; an exception is one
of the two send errors and some answer of the kernel was not positive and was
not an `EINTR` failure. -/
theorem Socket.SendAll.send_steps_end :
    ∀ (fuel : Nat) (data : List Byte) (os : OS), data ≠ [] →
      (∀ os1, Socket.SendAll.steps fuel data os = .ret () os1 →
          os1.outgoing = os.outgoing ++ data)
      ∧ (∀ e os1, Socket.SendAll.steps fuel data os = .throw e os1 →
          (e = .SocketConnectionClosedException ∨ e = .SendException)
          ∧ (∃ r ∈ os.future, r.ret ≤ 0 ∧ ¬ (r.ret < 0 ∧ r.err = EINTR))
          ∧ ∃ k, k < data.length ∧ os1.outgoing = os.outgoing ++ data.take k) := by
  intro fuel
  induction fuel with
  | zero => intro data os _; simp [Socket.SendAll.steps]
  | succ fuel ih =>
    intro data os hdata
    have hlen : 0 < data.length := List.length_pos.mpr hdata
    have hneg : (-1 : Int) < 0 := by decide
    rw [Socket.SendAll.steps]
    cases hf : os.future with
    | nil => simp [sysSend, hf]
    | cons r rest =>
      by_cases hr : r.ret < 0
      · simp only [sysSend, hf, hr, if_true, hneg]
        by_cases he : r.err = EINTR
        · simp only [he, if_true]
          obtain ⟨h1, h2⟩ := ih data
            { os with errno := EINTR, future := rest, trace := os.trace ++ [Syscall.send] } hdata
          refine ⟨h1, ?_⟩
          intro e os1 h
          obtain ⟨ha, ⟨r1, hr1, hb⟩, hc⟩ := h2 e os1 h
          exact ⟨ha, ⟨r1, List.mem_cons_of_mem _ hr1, hb⟩, hc⟩
        · simp only [he, if_false, Socket.SendAll.finish]
          constructor
          · intro os1 h
            split_ifs at h
          · intro e os1 h
            refine ⟨?_, ⟨r, List.mem_cons_self _ _, le_of_lt hr, fun hh => he hh.2⟩, 0, hlen, ?_⟩
            · split_ifs at h <;> simp at h <;> simp [h.1.symm]
            · split_ifs at h <;> simp at h <;> simp [← h.2]
      · simp only [sysSend, hf, hr, if_false]
        by_cases hz : min r.ret.toNat data.length = 0
        · simp only [hz, Nat.cast_zero, lt_self_iff_false, if_false, if_true,
            Socket.SendAll.finish]
          have hrz : r.ret ≤ 0 := by
            rcases Nat.min_eq_zero_iff.mp hz with h | h
            · exact Int.toNat_eq_zero.mp h
            · omega
          constructor
          · intro os1 h
            split_ifs at h
          · intro e os1 h
            refine ⟨?_, ⟨r, List.mem_cons_self _ _, hrz, fun hh => hr hh.1⟩, 0, hlen, ?_⟩
            · split_ifs at h <;> simp at h <;> simp [h.1.symm]
            · split_ifs at h <;> simp at h <;> simp [← h.2]
        · have hpos : 0 < min r.ret.toNat data.length := Nat.pos_of_ne_zero hz
          have h2 : ¬ ((min r.ret.toNat data.length : Nat) : Int) < 0 := by omega
          have h3 : ¬ ((min r.ret.toNat data.length : Nat) : Int) = 0 := by omega
          simp only [h2, h3, if_false, Int.toNat_ofNat]
          by_cases hall : data.length ≤ min r.ret.toNat data.length
          · rw [if_pos hall]
            have hk : min r.ret.toNat data.length = data.length :=
              le_antisymm (Nat.min_le_right _ _) hall
            constructor
            · intro os1 h
              simp only [Outcome.ret.injEq, true_and] at h
              subst h
              simp [hk]
            · intro e os1 h
              simp at h
          · rw [if_neg hall]
            have hk : min r.ret.toNat data.length < data.length := by omega
            have hne : data.drop (min r.ret.toNat data.length) ≠ [] := by
              intro h0
              have := congrArg List.length h0
              simp only [List.length_drop, List.length_nil] at this
              omega
            obtain ⟨h1, h2⟩ := ih (data.drop (min r.ret.toNat data.length))
              { os with future := rest,
                        outgoing := os.outgoing ++ data.take (min r.ret.toNat data.length),
                        trace := os.trace ++ [Syscall.send] } hne
            constructor
            · intro os1 h
              rw [h1 os1 h]
              simp [List.append_assoc]
            · intro e os1 h
              obtain ⟨ha, ⟨r1, hr1, hb⟩, k, hk1, hk2⟩ := h2 e os1 h
              refine ⟨ha, ⟨r1, List.mem_cons_of_mem _ hr1, hb⟩,
                min r.ret.toNat data.length + k, ?_, ?_⟩
              · simp only [List.length_drop] at hk1; omega
              · rw [hk2]
                simp only [List.append_assoc, List.append_cancel_left_eq]
                rw [List.take_add]

/-- The cases of `SendAll` on a non-empty payload, by the kernel's answer `r`
to the next `send` call, with no assumption on the answers.  A failure with
`EINTR` is retried: the call goes on as `SendAll` of the same payload.  Any
other failure throws `SocketConnectionClosedException` when its `errno` is
`EPIPE` or `ECONNRESET` and `SendException` otherwise.  The branch
`send(...) <= 0` also takes an answer `0` for an error.  A partial transfer
goes on as `SendAll` of the rest, a complete one returns.  Whenever the call
ends, the bytes handed to the kernel are a leading part of the payload, all of
it on a normal return. -/
theorem SendAll_classification (n0 : Int) (s : Socket) (os : OS) (buf : List Byte)
    (hbuf : buf ≠ []) :
    (os.future = [] → Socket.SendAll n0 s os buf = .blocked)
    ∧ (∀ r rest, os.future = r :: rest →
        (r.ret < 0 → r.err = EINTR →
          Socket.SendAll n0 s os buf
            = Socket.SendAll n0 s { os with errno := EINTR, future := rest,
                                            trace := os.trace ++ [Syscall.send] } buf)
        ∧ (r.ret < 0 → r.err ≠ EINTR →
          Socket.SendAll n0 s os buf
            = .throw (if r.err = EPIPE ∨ r.err = ECONNRESET
                      then Exn.SocketConnectionClosedException else Exn.SendException)
                { os with errno := r.err, future := rest,
                          trace := os.trace ++ [Syscall.send] })
        ∧ (r.ret = 0 →
          Socket.SendAll n0 s os buf
            = .throw (if os.errno = EPIPE ∨ os.errno = ECONNRESET
                      then Exn.SocketConnectionClosedException else Exn.SendException)
                { os with future := rest, trace := os.trace ++ [Syscall.send] })
        ∧ (0 < r.ret → r.ret.toNat < buf.length →
          Socket.SendAll n0 s os buf
            = Socket.SendAll n0 s
                { os with future := rest, outgoing := os.outgoing ++ buf.take r.ret.toNat,
                          trace := os.trace ++ [Syscall.send] } (buf.drop r.ret.toNat))
        ∧ (buf.length ≤ r.ret.toNat →
          Socket.SendAll n0 s os buf
            = .ret () { os with future := rest, outgoing := os.outgoing ++ buf,
                                trace := os.trace ++ [Syscall.send] }))
    ∧ (∀ os1, Socket.SendAll n0 s os buf = .ret () os1 → os1.outgoing = os.outgoing ++ buf)
    ∧ (∀ e os1, Socket.SendAll n0 s os buf = .throw e os1 →
        (e = .SocketConnectionClosedException ∨ e = .SendException)
        ∧ (∃ r ∈ os.future, r.ret ≤ 0 ∧ ¬ (r.ret < 0 ∧ r.err = EINTR))
        ∧ ∃ k, k < buf.length ∧ os1.outgoing = os.outgoing ++ buf.take k) := by
  have hlen : 0 < buf.length := List.length_pos.mpr hbuf
  have hneg : (-1 : Int) < 0 := by decide
  have hend := Socket.SendAll.send_steps_end (os.future.length + 1) buf os hbuf
  rw [Socket.SendAll_eq_steps n0 s os buf hbuf]
  refine ⟨?_, ?_, hend.1, hend.2⟩
  · intro hf
    simp [Socket.SendAll.steps, sysSend, hf]
  · intro r rest hf
    refine ⟨?_, ?_, ?_, ?_, ?_⟩
    · intro hr he
      rw [Socket.SendAll_eq_steps n0 s _ buf hbuf]
      simp [Socket.SendAll.steps, sysSend, hf, hr, he]
    · intro hr he
      simp only [Socket.SendAll.steps, sysSend, hf, hr, he, hneg, if_true, if_false,
        Socket.SendAll.finish]
      split_ifs <;> rfl
    · intro hr
      simp only [Socket.SendAll.steps, sysSend, hf, hr, hneg, Int.toNat_zero, Nat.zero_min,
        Nat.cast_zero, lt_self_iff_false, if_true, if_false, Socket.SendAll.finish]
      split_ifs <;> simp
    · intro hr hk
      rw [Socket.SendAll_eq_steps n0 s _ (buf.drop r.ret.toNat)
        (by intro h0; have := congrArg List.length h0; simp at this; omega)]
      have hmin : min r.ret.toNat buf.length = r.ret.toNat := Nat.min_eq_left (le_of_lt hk)
      have hpos : 0 < r.ret.toNat := by omega
      have h1 : ¬ r.ret < 0 := by omega
      have h2 : ¬ ((r.ret.toNat : Nat) : Int) < 0 := by omega
      have h3 : ¬ ((r.ret.toNat : Nat) : Int) = 0 := by omega
      have h4 : ¬ buf.length ≤ r.ret.toNat := by omega
      simp only [Socket.SendAll.steps, sysSend, hf, h1, hmin, h2, h3, h4, if_false,
        Int.toNat_ofNat, List.length_cons]
    · intro hk
      have hmin : min r.ret.toNat buf.length = buf.length := Nat.min_eq_right hk
      have h1 : ¬ r.ret < 0 := by omega
      have h2 : ¬ ((buf.length : Nat) : Int) < 0 := by omega
      have h3 : ¬ ((buf.length : Nat) : Int) = 0 := by omega
      simp [Socket.SendAll.steps, sysSend, hf, h1, hmin, h2, h3]

/-- When the kernel never answers `0` to a `send`, an exception thrown by
`steps` comes from the first answer that is a failure other than `EINTR`:
every answer before it was a transfer or an `EINTR` failure, its `errno` is
left in place and chooses the exception, and the answers after it are
unused. -/
theorem Socket.SendAll.send_steps_throw_cause :
    ∀ (fuel : Nat) (data : List Byte) (os : OS), data ≠ [] →
      (∀ r ∈ os.future, r.ret ≠ 0) →
      ∀ e os1, Socket.SendAll.steps fuel data os = .throw e os1 →
        ∃ pre r, os.future = pre ++ r :: os1.future
          ∧ (∀ x ∈ pre, 0 < x.ret ∨ (x.ret < 0 ∧ x.err = EINTR))
          ∧ r.ret < 0 ∧ r.err ≠ EINTR ∧ os1.errno = r.err
          ∧ e = (if r.err = EPIPE ∨ r.err = ECONNRESET
                 then Exn.SocketConnectionClosedException else Exn.SendException) := by
  intro fuel
  induction fuel with
  | zero => intro data os _ _ e os1 h; simp [Socket.SendAll.steps] at h
  | succ fuel ih =>
    intro data os hdata hsend e os1 h
    have hlen : 0 < data.length := List.length_pos.mpr hdata
    have hneg : (-1 : Int) < 0 := by decide
    rw [Socket.SendAll.steps] at h
    cases hf : os.future with
    | nil => simp [sysSend, hf] at h
    | cons r rest =>
      have hr0 : r.ret ≠ 0 := hsend r (by simp [hf])
      have hsendrest : ∀ x ∈ rest, x.ret ≠ 0 := fun x hx => hsend x (by simp [hf, hx])
      by_cases hr : r.ret < 0
      · simp only [sysSend, hf, hr, if_true, hneg] at h
        by_cases he : r.err = EINTR
        · simp only [he, if_true] at h
          obtain ⟨pre, r1, h1, h2, h3⟩ := ih data _ hdata hsendrest e os1 h
          simp only at h1
          refine ⟨r :: pre, r1, by rw [h1]; rfl, ?_, h3⟩
          intro x hx
          rcases List.mem_cons.mp hx with hx | hx
          · subst hx; exact Or.inr ⟨hr, he⟩
          · exact h2 x hx
        · simp only [he, if_false, Socket.SendAll.finish, if_true] at h
          refine ⟨[], r, ?_, by simp, hr, he, ?_, ?_⟩
          · split_ifs at h <;> simp at h <;> simp [← h.2]
          · split_ifs at h <;> simp at h <;> simp [← h.2]
          · split_ifs at h with hc <;> simp at h <;> simp [hc, h.1.symm]
      · have hrpos : 0 < r.ret := by omega
        have hk : 0 < min r.ret.toNat data.length := by
          have : 0 < r.ret.toNat := by omega
          omega
        have h2 : ¬ ((min r.ret.toNat data.length : Nat) : Int) < 0 := by omega
        have h3 : ¬ ((min r.ret.toNat data.length : Nat) : Int) = 0 := by omega
        simp only [sysSend, hf, hr, if_false, h2, h3, Int.toNat_ofNat] at h
        by_cases hall : data.length ≤ min r.ret.toNat data.length
        · rw [if_pos hall] at h; simp at h
        · rw [if_neg hall] at h
          have hne : data.drop (min r.ret.toNat data.length) ≠ [] := by
            intro h0
            have := congrArg List.length h0
            simp only [List.length_drop, List.length_nil] at this
            omega
          obtain ⟨pre, r1, h1, h4, h5⟩ := ih _ _ hne hsendrest e os1 h
          simp only at h1
          refine ⟨r :: pre, r1, by rw [h1]; rfl, ?_, h5⟩
          intro x hx
          rcases List.mem_cons.mp hx with hx | hx
          · subst hx; exact Or.inl hrpos
          · exact h4 x hx

/-- C5: `SendAll` on a non-empty payload, the kernel never answering `0` to a
`send` (a blocking `send` of a non-empty buffer returns a positive count or
fails).  By the kernel's answer `r` to the next `send` call: a failure with
`EINTR` is retried, the call goes on as `SendAll` of the same payload; any
other failure throws `SocketConnectionClosedException` when its `errno` is
`EPIPE` or `ECONNRESET` and `SendException` otherwise; a partial transfer
goes on as `SendAll` of the rest and a complete one returns.  On a normal
return the kernel has been handed exactly the payload.  An exception is
thrown only when a `send` call returned a negative result: it comes from the
first answer that is a failure other than `EINTR`, whose `errno` chooses it,
and the bytes handed to the kernel so far are a leading part of the
payload. -/
theorem SendAll_error_classification (n0 : Int) (s : Socket) (os : OS) (buf : List Byte)
    (hbuf : buf ≠ []) (hsend : ∀ r ∈ os.future, r.ret ≠ 0) :
    (∀ r rest, os.future = r :: rest →
        (r.ret < 0 → r.err = EINTR →
          Socket.SendAll n0 s os buf
            = Socket.SendAll n0 s { os with errno := EINTR, future := rest,
                                            trace := os.trace ++ [Syscall.send] } buf)
        ∧ (r.ret < 0 → r.err ≠ EINTR →
          Socket.SendAll n0 s os buf
            = .throw (if r.err = EPIPE ∨ r.err = ECONNRESET
                      then Exn.SocketConnectionClosedException else Exn.SendException)
                { os with errno := r.err, future := rest,
                          trace := os.trace ++ [Syscall.send] })
        ∧ (0 < r.ret → r.ret.toNat < buf.length →
          Socket.SendAll n0 s os buf
            = Socket.SendAll n0 s
                { os with future := rest, outgoing := os.outgoing ++ buf.take r.ret.toNat,
                          trace := os.trace ++ [Syscall.send] } (buf.drop r.ret.toNat))
        ∧ (0 < r.ret → buf.length ≤ r.ret.toNat →
          Socket.SendAll n0 s os buf
            = .ret () { os with future := rest, outgoing := os.outgoing ++ buf,
                                trace := os.trace ++ [Syscall.send] }))
    ∧ (∀ os1, Socket.SendAll n0 s os buf = .ret () os1 → os1.outgoing = os.outgoing ++ buf)
    ∧ (∀ e os1, Socket.SendAll n0 s os buf = .throw e os1 →
        (∃ pre r, os.future = pre ++ r :: os1.future
          ∧ (∀ x ∈ pre, 0 < x.ret ∨ (x.ret < 0 ∧ x.err = EINTR))
          ∧ r.ret < 0 ∧ r.err ≠ EINTR ∧ os1.errno = r.err
          ∧ e = (if r.err = EPIPE ∨ r.err = ECONNRESET
                 then Exn.SocketConnectionClosedException else Exn.SendException))
        ∧ ∃ k, k < buf.length ∧ os1.outgoing = os.outgoing ++ buf.take k) := by
  obtain ⟨_, hlaws, hret, hthrow⟩ := SendAll_classification n0 s os buf hbuf
  refine ⟨?_, hret, ?_⟩
  · intro r rest hf
    obtain ⟨h1, h2, _, h4, h5⟩ := hlaws r rest hf
    exact ⟨h1, h2, h4, fun _ => h5⟩
  · intro e os1 h
    refine ⟨?_, (hthrow e os1 h).2.2⟩
    rw [Socket.SendAll_eq_steps n0 s os buf hbuf] at h
    exact Socket.SendAll.send_steps_throw_cause _ buf os hbuf hsend e os1 h

/-- Witness of `SendAll_error_classification`: of the payload "PONG" three
bytes are accepted, the next `send` is interrupted and retried, and the retry
fails with `EPIPE`: the call throws `SocketConnectionClosedException` with
"PON" handed to the kernel, and the exception comes from the third answer. -/
theorem SendAll_error_classification_witness :
    ([80, 79, 78, 71] : List Byte) ≠ []
      ∧ (∀ r ∈ (exampleOS 0 [⟨3, 0⟩, ⟨-1, EINTR⟩, ⟨-1, EPIPE⟩, ⟨5, 0⟩] []).future, r.ret ≠ 0)
      ∧ Socket.SendAll 0 exampleSocket
            (exampleOS 0 [⟨3, 0⟩, ⟨-1, EINTR⟩, ⟨-1, EPIPE⟩, ⟨5, 0⟩] []) [80, 79, 78, 71]
          = .throw .SocketConnectionClosedException
              { exampleOS EPIPE [⟨5, 0⟩] [] with
                  outgoing := [80, 79, 78],
                  trace := [Syscall.send, Syscall.send, Syscall.send] }
      ∧ ∃ pre r, (exampleOS 0 [⟨3, 0⟩, ⟨-1, EINTR⟩, ⟨-1, EPIPE⟩, ⟨5, 0⟩] []).future
            = pre ++ r :: [⟨5, 0⟩]
          ∧ (∀ x ∈ pre, 0 < x.ret ∨ (x.ret < 0 ∧ x.err = EINTR))
          ∧ r.ret < 0 ∧ r.err ≠ EINTR ∧ EPIPE = r.err
          ∧ Exn.SocketConnectionClosedException
              = (if r.err = EPIPE ∨ r.err = ECONNRESET
                 then Exn.SocketConnectionClosedException else Exn.SendException) :=
  have hthrow : Socket.SendAll 0 exampleSocket
        (exampleOS 0 [⟨3, 0⟩, ⟨-1, EINTR⟩, ⟨-1, EPIPE⟩, ⟨5, 0⟩] []) [80, 79, 78, 71]
      = .throw .SocketConnectionClosedException
          { exampleOS EPIPE [⟨5, 0⟩] [] with
              outgoing := [80, 79, 78],
              trace := [Syscall.send, Syscall.send, Syscall.send] } := by
    decide
  ⟨by decide, by decide, hthrow,
   ((SendAll_error_classification 0 exampleSocket
      (exampleOS 0 [⟨3, 0⟩, ⟨-1, EINTR⟩, ⟨-1, EPIPE⟩, ⟨5, 0⟩] []) [80, 79, 78, 71]
      (by decide) (by decide)).2.2 _ _ hthrow).1⟩

/-! ## RecvAll: classification of outcomes -/

/-- Mapping a function that fixes every returned value changes nothing. -/
theorem Outcome.map_eq_self {α : Type} (f : α → α) (x : Outcome α)
    (h : ∀ a os, x = .ret a os → f a = a) : x.map f = x := by
  cases x with
  | ret a os => simp [Outcome.map, h a os rfl]
  | throw e os => rfl
  | blocked => rfl

/-- Two successive maps are one. -/
theorem Outcome.map_map {α β γ : Type} (f : α → β) (g : β → γ) (x : Outcome α) :
    (x.map f).map g = x.map (fun a => g (f a)) := by
  cases x <;> rfl

/-- Two writes side by side are one write of the concatenation. -/
theorem writeAt_writeAt (buf : List Byte) (a : Nat) (x y : List Byte) (h : a ≤ buf.length) :
    writeAt (writeAt buf a x) (a + x.length) y = writeAt buf a (x ++ y) := by
  have h1 : (buf.take a).length = a := by simp [h]
  have h2 : (buf.take a ++ x).length = a + x.length := by simp [h1]
  simp only [writeAt]
  rw [List.take_left' h2]
  have h3 : a + x.length + y.length = (buf.take a ++ x).length + y.length := by rw [h2]
  rw [h3, List.drop_append, List.drop_drop, List.length_append]
  simp only [List.append_assoc]
  congr 4
  omega

/-- Writing `len` bytes at the start of a buffer of `len` bytes gives those bytes. -/
theorem writeAt_zero_full (buf d : List Byte) (h : d.length = buf.length) :
    writeAt buf 0 d = d := by
  simp [writeAt, h]

/-- What a returning `RecvTimeoutWrapper` has done: it has consumed at least one
kernel answer; on failure the stream is untouched; otherwise the bytes stored
are the first unread ones, at most `len`, and they leave the stream unless
peeked. -/
theorem Socket.RecvTimeoutWrapper_ret (s : Socket) (os os1 : OS) (len : Nat) (peek : Bool)
    (r : Int) (bytes : List Byte)
    (h : s.RecvTimeoutWrapper os len peek = .ret (r, bytes) os1) :
    os1.future.length < os.future.length
    ∧ (∃ m, os.future.drop m = os1.future ∧ 0 < m ∧ m ≤ 2)
    ∧ (r < 0 → r = -1 ∧ os1.incoming = os.incoming)
    ∧ (0 ≤ r → r = bytes.length ∧ bytes.length ≤ len ∧ bytes = os.incoming.take bytes.length
        ∧ os1.incoming = if peek then os.incoming else os.incoming.drop bytes.length)
    ∧ (∃ calls, os1.trace = os.trace ++ calls ∧ (¬ 0 < s.timeout → Syscall.poll ∉ calls)) := by
  have key : ∀ (o o1 : OS) (calls0 : List Syscall) (m0 : Nat),
      sysRecv o len peek = some (r, bytes, o1) →
      o.trace = os.trace ++ calls0 → (¬ 0 < s.timeout → Syscall.poll ∉ calls0) →
      o.future = os.future.drop m0 → m0 ≤ 1 → o.incoming = os.incoming → m0 ≤ os.future.length →
      o1.future.length < os.future.length
      ∧ (∃ m, os.future.drop m = o1.future ∧ 0 < m ∧ m ≤ 2)
      ∧ (r < 0 → r = -1 ∧ o1.incoming = os.incoming)
      ∧ (0 ≤ r → r = bytes.length ∧ bytes.length ≤ len ∧ bytes = os.incoming.take bytes.length
          ∧ o1.incoming = if peek then os.incoming else os.incoming.drop bytes.length)
      ∧ (∃ calls, o1.trace = os.trace ++ calls ∧ (¬ 0 < s.timeout → Syscall.poll ∉ calls)) := by
    intro o o1 calls0 m0 hrecv htr hpoll hfut hm0 hinc hm0len
    simp only [sysRecv] at hrecv
    cases hf : o.future with
    | nil => simp [hf] at hrecv
    | cons a rest =>
      have hlen1 : rest.length + 1 + m0 = os.future.length := by
        have := congrArg List.length hfut
        simp only [hf, List.length_cons, List.length_drop] at this
        omega
      have hdrop : os.future.drop (m0 + 1) = rest := by
        have h1 : os.future.drop (m0 + 1) = (os.future.drop m0).drop 1 := by
          rw [List.drop_drop]
        rw [h1, ← hfut, hf]; rfl
      simp only [hf] at hrecv
      by_cases ha : a.ret < 0
      · simp only [ha, if_true, Option.some.injEq, Prod.mk.injEq] at hrecv
        obtain ⟨h1, h2, h3⟩ := hrecv
        subst h1 h2 h3
        refine ⟨by simp; omega, ⟨m0 + 1, by simpa using hdrop, by omega, by omega⟩,
          fun _ => ⟨rfl, hinc⟩, fun h => absurd h (by decide), ?_⟩
        refine ⟨calls0 ++ [if peek then Syscall.recvPeek else Syscall.recv], ?_, ?_⟩
        · simp [htr]
        · intro ht
          have := hpoll ht
          cases peek <;> simp [this]
      · simp only [ha, if_false, Option.some.injEq, Prod.mk.injEq] at hrecv
        obtain ⟨h1, h2, h3⟩ := hrecv
        subst h1 h2 h3
        refine ⟨by simp; omega, ⟨m0 + 1, by simpa using hdrop, by omega, by omega⟩,
          fun h => absurd h (by simp), fun _ => ⟨rfl, ?_, ?_, ?_⟩, ?_⟩
        · simp only [List.length_take]
          omega
        · rw [hinc]
          simp only [List.length_take, List.take_eq_take]
          omega
        · simp [hinc]
        · refine ⟨calls0 ++ [if peek then Syscall.recvPeek else Syscall.recv], ?_, ?_⟩
          · simp [htr]
          · intro ht
            have := hpoll ht
            cases peek <;> simp [this]
  simp only [Socket.RecvTimeoutWrapper, Socket.ApplyRecvTimeout] at h
  by_cases ht : 0 < s.timeout
  · simp only [ht, if_true, sysPoll] at h
    cases hf : os.future with
    | nil => simp [hf] at h
    | cons p rest =>
      simp only [hf] at h
      by_cases hp : p.ret < 0
      · simp [hp] at h
      · by_cases hp0 : p.ret = 0
        · simp [hp0] at h
        · simp only [hp, hp0, if_false] at h
          have h10 : ¬ (1 : Int) = 0 := by decide
          have h11 : ¬ (1 : Int) = -1 := by decide
          simp only [h10, h11, if_false] at h
          split at h
          · simp at h
          · rename_i n1 b1 o1 hrecv
            simp only [Outcome.ret.injEq, Prod.mk.injEq] at h
            obtain ⟨⟨h1, h2⟩, h3⟩ := h
            subst h1 h2 h3
            have := key _ _ [Syscall.poll] 1 hrecv (by simp) (fun hn => absurd ht hn)
              (by simp [hf]) (le_refl _) rfl (by simp [hf])
            simpa [hf] using this
  · simp only [ht, if_false] at h
    split at h
    · simp at h
    · rename_i n1 b1 o1 hrecv
      simp only [Outcome.ret.injEq, Prod.mk.injEq] at h
      obtain ⟨⟨h1, h2⟩, h3⟩ := h
      subst h1 h2 h3
      exact key _ _ [] 0 hrecv (by simp) (fun _ => by simp) (by simp) (by omega) rfl (by omega)

/-- What a throwing `RecvTimeoutWrapper` has done: the poll timed out or failed;
the stream is untouched. -/
theorem Socket.RecvTimeoutWrapper_throw (s : Socket) (os os1 : OS) (len : Nat) (peek : Bool)
    (e : Exn) (h : s.RecvTimeoutWrapper os len peek = .throw e os1) :
    0 < s.timeout ∧ (e = .TimeoutException ∨ e = .RecvException)
      ∧ os1.incoming = os.incoming ∧ ∃ calls, os1.trace = os.trace ++ calls := by
  simp only [Socket.RecvTimeoutWrapper, Socket.ApplyRecvTimeout] at h
  by_cases ht : 0 < s.timeout
  · refine ⟨ht, ?_⟩
    simp only [ht, if_true, sysPoll] at h
    cases hf : os.future with
    | nil => simp [hf] at h
    | cons p rest =>
      simp only [hf] at h
      by_cases hp : p.ret < 0
      · simp [hp] at h
        obtain ⟨h1, h2⟩ := h
        subst h1 h2
        exact ⟨by simp, by simp, ⟨[Syscall.poll], rfl⟩⟩
      · by_cases hp0 : p.ret = 0
        · simp [hp0] at h
          obtain ⟨h1, h2⟩ := h
          subst h1 h2
          exact ⟨by simp, by simp, ⟨[Syscall.poll], rfl⟩⟩
        · simp only [hp, hp0, if_false] at h
          have h10 : ¬ (1 : Int) = 0 := by decide
          have h11 : ¬ (1 : Int) = -1 := by decide
          simp only [h10, h11, if_false] at h
          split at h <;> simp at h
  · simp only [ht, if_false] at h
    split at h <;> simp at h

/-- The loop of `RecvAll` with `bytesleft` bytes to go behaves as `steps`: the
bytes received are stored at the current position of the buffer. -/
theorem Socket.RecvAll.recv_loop_eq_steps (s : Socket) (off : Nat) :
    ∀ (fuel : Nat) (buf : List Byte) (total bl : Nat) (n : Int) (os : OS),
      os.future.length < fuel → 0 < bl → off + total ≤ buf.length →
      Socket.RecvAll.loop s off fuel buf total bl n os
        = (Socket.RecvAll.steps s fuel bl os).map (fun d => writeAt buf (off + total) d) := by
  intro fuel
  induction fuel with
  | zero => intro buf total bl n os h; omega
  | succ fuel ih =>
    intro buf total bl n os hfuel hbl hlen
    rw [Socket.RecvAll.loop, Socket.RecvAll.steps, if_pos hbl]
    cases hw : s.RecvTimeoutWrapper os bl false with
    | blocked => rfl
    | throw e os1 => rfl
    | ret v os1 =>
      obtain ⟨r, bytes⟩ := v
      obtain ⟨hlt, _, hneg, hpos, _⟩ := Socket.RecvTimeoutWrapper_ret s os os1 bl false r bytes hw
      have hfuel1 : os1.future.length < fuel := by omega
      simp only
      by_cases hr : r < 0
      · simp only [hr, if_true]
        by_cases he : os1.errno = EINTR
        · simp only [he, if_true]
          exact ih buf total bl 0 os1 hfuel1 hbl hlen
        · simp [he, Socket.RecvAll.finish, Outcome.map]
      · obtain ⟨hrb, hble, _, _⟩ := hpos (by omega)
        simp only [hr, if_false]
        by_cases hz : r = 0
        · simp [hz, Socket.RecvAll.finish, Outcome.map]
        · simp only [hz, if_false]
          have hrn : r.toNat = bytes.length := by omega
          by_cases hall : bl ≤ r.toNat
          · have hzero : bl - r.toNat = 0 := by omega
            rw [if_pos hall, hzero]
            obtain ⟨f, rfl⟩ : ∃ f, fuel = f + 1 := ⟨fuel - 1, by omega⟩
            simp [Socket.RecvAll.loop, Socket.RecvAll.finish, hr, hz, Outcome.map]
          · rw [if_neg hall]
            rw [ih _ (total + r.toNat) (bl - r.toNat) r os1 hfuel1 (by omega)
              (by simp [writeAt]; omega)]
            rw [Outcome.map_map]
            congr 1
            funext d
            rw [hrn, ← Nat.add_assoc, writeAt_writeAt buf (off + total) bytes d hlen]

/-- More fuel than kernel answers is as good as any other such amount. -/
theorem Socket.RecvAll.recv_steps_fuel (s : Socket) :
    ∀ (fuel1 fuel2 need : Nat) (os : OS),
      os.future.length < fuel1 → os.future.length < fuel2 →
      Socket.RecvAll.steps s fuel1 need os = Socket.RecvAll.steps s fuel2 need os := by
  intro fuel1
  induction fuel1 with
  | zero => intro fuel2 need os h; omega
  | succ fuel1 ih =>
    intro fuel2 need os h1 h2
    obtain ⟨f2, rfl⟩ : ∃ f, fuel2 = f + 1 := ⟨fuel2 - 1, by omega⟩
    rw [Socket.RecvAll.steps, Socket.RecvAll.steps]
    cases hw : s.RecvTimeoutWrapper os need false with
    | blocked => rfl
    | throw e os1 => rfl
    | ret v os1 =>
      obtain ⟨r, bytes⟩ := v
      obtain ⟨hlt, _⟩ := Socket.RecvTimeoutWrapper_ret s os os1 need false r bytes hw
      simp only
      rw [ih f2 need os1 (by omega) (by omega),
        ih f2 (need - r.toNat) os1 (by omega) (by omega)]

/-- What `steps` guarantees when it ends.  On a normal return the value is the
first `need` unread bytes, which have left the stream.  An exception is
`RecvException`, `SocketConnectionClosedException` or, with a positive
timeout only, `TimeoutException`, and fewer than `need` bytes have left the
stream.  Without a positive timeout no `poll` call has been made. -/
theorem Socket.RecvAll.recv_steps_end (s : Socket) :
    ∀ (fuel need : Nat) (os : OS), 0 < need →
      (∀ d os1, Socket.RecvAll.steps s fuel need os = .ret d os1 →
          d.length = need ∧ d = os.incoming.take need ∧ os1.incoming = os.incoming.drop need
          ∧ ∃ calls, os1.trace = os.trace ++ calls ∧ (¬ 0 < s.timeout → Syscall.poll ∉ calls))
      ∧ (∀ e os1, Socket.RecvAll.steps s fuel need os = .throw e os1 →
          (e = .RecvException ∨ e = .SocketConnectionClosedException
            ∨ (e = .TimeoutException ∧ 0 < s.timeout))
          ∧ (∃ k, k < need ∧ os1.incoming = os.incoming.drop k)
          ∧ ∃ calls, os1.trace = os.trace ++ calls
              ∧ (¬ 0 < s.timeout → Syscall.poll ∉ calls)) := by
  intro fuel
  induction fuel with
  | zero => intro need os _; simp [Socket.RecvAll.steps]
  | succ fuel ih =>
    intro need os hneed
    rw [Socket.RecvAll.steps]
    cases hw : s.RecvTimeoutWrapper os need false with
    | blocked => simp
    | throw e0 os0 =>
      obtain ⟨ht, he, hinc, calls, hcalls⟩ := Socket.RecvTimeoutWrapper_throw s os os0 need false e0 hw
      refine ⟨by simp, ?_⟩
      intro e os1 h
      simp only [Outcome.throw.injEq] at h
      obtain ⟨h1, h2⟩ := h
      subst h1 h2
      refine ⟨?_, ⟨0, hneed, by simpa using hinc⟩, calls, hcalls, fun hn => absurd ht hn⟩
      rcases he with he | he
      · exact Or.inr (Or.inr ⟨he, ht⟩)
      · exact Or.inl he
    | ret v os0 =>
      obtain ⟨r, bytes⟩ := v
      obtain ⟨_, _, hneg, hpos, calls0, hcalls0, hpoll0⟩ :=
        Socket.RecvTimeoutWrapper_ret s os os0 need false r bytes hw
      simp only
      by_cases hr : r < 0
      · obtain ⟨_, hinc⟩ := hneg hr
        simp only [hr, if_true]
        by_cases he : os0.errno = EINTR
        · simp only [he, if_true]
          obtain ⟨h1, h2⟩ := ih need os0 hneed
          constructor
          · intro d os1 h
            obtain ⟨ha, hb, hc, calls, hd, hp⟩ := h1 d os1 h
            refine ⟨ha, by rw [hb, hinc], by rw [hc, hinc], calls0 ++ calls, ?_, ?_⟩
            · rw [hd, hcalls0, List.append_assoc]
            · intro hn
              simp [hpoll0 hn, hp hn]
          · intro e os1 h
            obtain ⟨ha, ⟨k, hk, hc⟩, calls, hd, hp⟩ := h2 e os1 h
            refine ⟨ha, ⟨k, hk, by rw [hc, hinc]⟩, calls0 ++ calls, ?_, ?_⟩
            · rw [hd, hcalls0, List.append_assoc]
            · intro hn
              simp [hpoll0 hn, hp hn]
        · simp only [he, if_false]
          refine ⟨by simp, ?_⟩
          intro e os1 h
          simp only [Outcome.throw.injEq] at h
          obtain ⟨h1, h2⟩ := h
          subst h1 h2
          exact ⟨Or.inl rfl, ⟨0, hneed, by simpa using hinc⟩, calls0, hcalls0, hpoll0⟩
      · obtain ⟨hrb, hble, hbytes, hinc⟩ := hpos (by omega)
        simp only [Bool.false_eq_true, if_false] at hinc
        simp only [hr, if_false]
        by_cases hz : r = 0
        · simp only [hz, if_true]
          refine ⟨by simp, ?_⟩
          intro e os1 h
          simp only [Outcome.throw.injEq] at h
          obtain ⟨h1, h2⟩ := h
          subst h1 h2
          have hb0 : bytes.length = 0 := by omega
          exact ⟨Or.inr (Or.inl rfl), ⟨0, hneed, by simpa [hb0] using hinc⟩,
            calls0, hcalls0, hpoll0⟩
        · simp only [hz, if_false]
          have hrn : r.toNat = bytes.length := by omega
          have hbpos : 0 < bytes.length := by omega
          have hble2 : bytes.length ≤ os.incoming.length := by
            have := congrArg List.length hbytes
            simp only [List.length_take] at this
            omega
          by_cases hall : need ≤ r.toNat
          · rw [if_pos hall]
            have hbn : bytes.length = need := by omega
            refine ⟨?_, by simp⟩
            intro d os1 h
            simp only [Outcome.ret.injEq] at h
            obtain ⟨h1, h2⟩ := h
            subst h1 h2
            exact ⟨hbn, by rw [← hbn]; exact hbytes, by rw [← hbn]; exact hinc,
              calls0, hcalls0, hpoll0⟩
          · rw [if_neg hall]
            obtain ⟨h1, h2⟩ := ih (need - r.toNat) os0 (by omega)
            constructor
            · intro d os1 h
              cases hst : Socket.RecvAll.steps s fuel (need - r.toNat) os0 with
              | blocked => simp [hst, Outcome.map] at h
              | throw e2 os2 => simp [hst, Outcome.map] at h
              | ret d2 os2 =>
                simp only [hst, Outcome.map, Outcome.ret.injEq] at h
                obtain ⟨hd, hos⟩ := h
                subst hd hos
                obtain ⟨ha, hb, hc, calls, hd, hp⟩ := h1 d2 os2 hst
                refine ⟨by simp [ha]; omega, ?_, ?_, calls0 ++ calls, ?_, ?_⟩
                · rw [hb, hinc, hrn]
                  have hsplit : need = bytes.length + (need - bytes.length) := by omega
                  conv_rhs => rw [hsplit, List.take_add]
                  rw [← hbytes]
                · rw [hc, hinc, hrn, List.drop_drop]
                  congr 1
                  omega
                · rw [hd, hcalls0, List.append_assoc]
                · intro hn
                  simp [hpoll0 hn, hp hn]
            · intro e os1 h
              cases hst : Socket.RecvAll.steps s fuel (need - r.toNat) os0 with
              | blocked => simp [hst, Outcome.map] at h
              | ret d2 os2 => simp [hst, Outcome.map] at h
              | throw e2 os2 =>
                simp only [hst, Outcome.map, Outcome.throw.injEq] at h
                obtain ⟨hd, hos⟩ := h
                subst hd hos
                obtain ⟨ha, ⟨k, hk, hc⟩, calls, hd, hp⟩ := h2 e2 os2 hst
                refine ⟨ha, ⟨bytes.length + k, by omega, ?_⟩, calls0 ++ calls, ?_, ?_⟩
                · rw [hc, hinc, List.drop_drop]
                · rw [hd, hcalls0, List.append_assoc]
                · intro hn
                  simp [hpoll0 hn, hp hn]

/-- `RecvAll` of a positive length is `steps` for that many bytes. -/
theorem Socket.RecvAll_eq_steps (s : Socket) (os : OS) (len : Nat) (hlen : 0 < len) :
    s.RecvAll os len = Socket.RecvAll.steps s (os.future.length + 1) len os := by
  rw [Socket.RecvAll, Socket.RecvAllBuf, if_neg (by omega),
    Socket.RecvAll.recv_loop_eq_steps s 0 _ _ 0 len 0 os (by omega) hlen (by simp)]
  apply Outcome.map_eq_self
  intro d os1 h
  obtain ⟨hd, _⟩ := (Socket.RecvAll.recv_steps_end s _ len os hlen).1 d os1 h
  exact writeAt_zero_full _ d (by simp [hd])

/-- A returning `ApplyRecvTimeout` has consumed at most one kernel answer. -/
theorem Socket.ApplyRecvTimeout_ret (s : Socket) (os os0 : OS)
    (h : s.ApplyRecvTimeout os = .ret () os0) : os0.future.length ≤ os.future.length := by
  simp only [Socket.ApplyRecvTimeout, sysPoll] at h
  split_ifs at h with ht
  · cases hf : os.future with
    | nil => simp [hf] at h
    | cons p rest =>
      simp only [hf] at h
      split_ifs at h <;> simp at h
      all_goals (subst h; simp)
  · simp only [Outcome.ret.injEq, true_and] at h
    subst h
    exact le_refl _

/-- C4: `RecvAll(len)` with `len > 0`, by the kernel's next answers.  With a
positive timeout a `poll` precedes every receive: the answer `0` throws
`TimeoutException`, a failure throws `RecvException`; without a positive
timeout no `poll` is made and `TimeoutException` is never thrown.  For the
receive that follows: a failure with `EINTR` is retried (the call goes on as
`RecvAll(len)`), any other failure throws `RecvException`, no byte delivered
throws `SocketConnectionClosedException`, fewer than `len` bytes go on as
`RecvAll` of the missing bytes, `len` bytes return.  The call returns only
with exactly the first `len` unread bytes, which have left the stream; when it
throws, fewer than `len` bytes have left the stream. -/
theorem RecvAll_classification (s : Socket) (os : OS) (len : Nat) (hlen : 0 < len) :
    (0 < s.timeout → ∀ p rest, os.future = p :: rest →
        (p.ret = 0 →
          s.RecvAll os len
            = .throw .TimeoutException
                { os with future := rest, trace := os.trace ++ [Syscall.poll] })
        ∧ (p.ret < 0 →
          s.RecvAll os len
            = .throw .RecvException
                { os with errno := p.err, future := rest,
                          trace := os.trace ++ [Syscall.poll] })
        ∧ (0 < p.ret →
          s.ApplyRecvTimeout os
            = .ret () { os with future := rest, trace := os.trace ++ [Syscall.poll] }))
    ∧ (¬ 0 < s.timeout → s.ApplyRecvTimeout os = .ret () os)
    ∧ (∀ os0 r rest, s.ApplyRecvTimeout os = .ret () os0 → os0.future = r :: rest →
        (r.ret < 0 → r.err = EINTR →
          s.RecvAll os len
            = s.RecvAll { os0 with errno := EINTR, future := rest,
                                   trace := os0.trace ++ [Syscall.recv] } len)
        ∧ (r.ret < 0 → r.err ≠ EINTR →
          s.RecvAll os len
            = .throw .RecvException
                { os0 with errno := r.err, future := rest,
                           trace := os0.trace ++ [Syscall.recv] })
        ∧ (0 ≤ r.ret → min r.ret.toNat os0.incoming.length = 0 →
          s.RecvAll os len
            = .throw .SocketConnectionClosedException
                { os0 with future := rest, trace := os0.trace ++ [Syscall.recv] })
        ∧ (0 < min r.ret.toNat os0.incoming.length →
            min r.ret.toNat os0.incoming.length < len →
          s.RecvAll os len
            = (s.RecvAll
                { os0 with future := rest,
                           incoming :=
                             os0.incoming.drop (min r.ret.toNat os0.incoming.length),
                           trace := os0.trace ++ [Syscall.recv] }
                (len - min r.ret.toNat os0.incoming.length)).map
                (fun d => os0.incoming.take (min r.ret.toNat os0.incoming.length) ++ d))
        ∧ (len ≤ min r.ret.toNat os0.incoming.length →
          s.RecvAll os len
            = .ret (os0.incoming.take len)
                { os0 with future := rest, incoming := os0.incoming.drop len,
                           trace := os0.trace ++ [Syscall.recv] }))
    ∧ (∀ d os1, s.RecvAll os len = .ret d os1 →
        d.length = len ∧ d = os.incoming.take len ∧ os1.incoming = os.incoming.drop len
        ∧ ∃ calls, os1.trace = os.trace ++ calls ∧ (¬ 0 < s.timeout → Syscall.poll ∉ calls))
    ∧ (∀ e os1, s.RecvAll os len = .throw e os1 →
        (e = .RecvException ∨ e = .SocketConnectionClosedException
          ∨ (e = .TimeoutException ∧ 0 < s.timeout))
        ∧ (∃ k, k < len ∧ os1.incoming = os.incoming.drop k)
        ∧ ∃ calls, os1.trace = os.trace ++ calls
            ∧ (¬ 0 < s.timeout → Syscall.poll ∉ calls)) := by
  have hneg : (-1 : Int) < 0 := by decide
  have hend := Socket.RecvAll.recv_steps_end s (os.future.length + 1) len os hlen
  rw [Socket.RecvAll_eq_steps s os len hlen]
  refine ⟨?_, ?_, ?_, hend.1, hend.2⟩
  · intro ht p rest hf
    refine ⟨?_, ?_, ?_⟩
    · intro hp
      simp [Socket.RecvAll.steps, Socket.RecvTimeoutWrapper, Socket.ApplyRecvTimeout, sysPoll,
        ht, hf, hp]
    · intro hp
      simp [Socket.RecvAll.steps, Socket.RecvTimeoutWrapper, Socket.ApplyRecvTimeout, sysPoll,
        ht, hf, hp]
    · intro hp
      have h1 : ¬ p.ret < 0 := by omega
      have h2 : ¬ p.ret = 0 := by omega
      simp [Socket.ApplyRecvTimeout, sysPoll, ht, hf, h1, h2]
  · intro ht
    simp [Socket.ApplyRecvTimeout, ht]
  · intro os0 r rest hap hf
    have hle := Socket.ApplyRecvTimeout_ret s os os0 hap
    have hrest : rest.length < os.future.length := by
      simp only [hf, List.length_cons] at hle; omega
    have hfuel : ∀ (need : Nat) (o : OS), o.future = rest →
        Socket.RecvAll.steps s os.future.length need o
          = Socket.RecvAll.steps s (o.future.length + 1) need o := by
      intro need o ho
      exact Socket.RecvAll.recv_steps_fuel s _ _ need o (by rw [ho]; exact hrest) (by omega)
    refine ⟨?_, ?_, ?_, ?_, ?_⟩
    · intro hr he
      rw [Socket.RecvAll_eq_steps s _ len hlen]
      rw [← hfuel len { os0 with errno := EINTR, future := rest,
                                 trace := os0.trace ++ [Syscall.recv] } rfl]
      simp [Socket.RecvAll.steps, Socket.RecvTimeoutWrapper, hap, sysRecv, hf, hr, he]
    · intro hr he
      simp [Socket.RecvAll.steps, Socket.RecvTimeoutWrapper, hap, sysRecv, hf, hr, he]
    · intro hr hz
      have h1 : ¬ r.ret < 0 := by omega
      have h2 : min (min r.ret.toNat len) os0.incoming.length = 0 := by omega
      simp [Socket.RecvAll.steps, Socket.RecvTimeoutWrapper, hap, sysRecv, hf, h1, h2]
    · intro hk0 hk
      have h1 : ¬ r.ret < 0 := by omega
      have hbytes : os0.incoming.take (min r.ret.toNat len)
          = os0.incoming.take (min r.ret.toNat os0.incoming.length) := by
        rw [List.take_eq_take]; omega
      have hbl : (os0.incoming.take (min r.ret.toNat os0.incoming.length)).length
          = min r.ret.toNat os0.incoming.length := by
        simp only [List.length_take]; omega
      have h2 : ¬ ((min r.ret.toNat os0.incoming.length : Nat) : Int) < 0 := by omega
      have h3 : ¬ ((min r.ret.toNat os0.incoming.length : Nat) : Int) = 0 := by omega
      have h4 : ¬ len ≤ min r.ret.toNat os0.incoming.length := by omega
      rw [Socket.RecvAll_eq_steps s _ (len - min r.ret.toNat os0.incoming.length) (by omega)]
      rw [← hfuel (len - min r.ret.toNat os0.incoming.length)
        { os0 with future := rest,
                   incoming := os0.incoming.drop (min r.ret.toNat os0.incoming.length),
                   trace := os0.trace ++ [Syscall.recv] } rfl]
      simp only [Socket.RecvAll.steps, Socket.RecvTimeoutWrapper, hap, sysRecv, hf, h1,
        if_false, hbytes, hbl, h2, h3, h4, Int.toNat_ofNat, Bool.false_eq_true]
    · intro hk
      have h1 : ¬ r.ret < 0 := by omega
      have hbytes : os0.incoming.take (min r.ret.toNat len) = os0.incoming.take len := by
        rw [List.take_eq_take]; omega
      have hbl : (os0.incoming.take len).length = len := by
        simp only [List.length_take]; omega
      have h2 : ¬ ((len : Nat) : Int) < 0 := by omega
      have h3 : ¬ ((len : Nat) : Int) = 0 := by omega
      simp only [Socket.RecvAll.steps, Socket.RecvTimeoutWrapper, hap, sysRecv, hf, h1,
        if_false, hbytes, hbl, h2, h3, Int.toNat_ofNat, Bool.false_eq_true, le_refl, if_true]

/-- Witness of `RecvAll_classification`: "PING" arrives in two pieces with an
`EINTR` failure in between, followed by "xyz"; `RecvAll(4)` returns "PING" and
leaves "xyz" unread. -/
theorem RecvAll_classification_witness :
    0 < 4
      ∧ exampleSocket.RecvAll
            (exampleOS 0 [⟨2, 0⟩, ⟨-1, EINTR⟩, ⟨9, 0⟩] [80, 73, 78, 71, 120, 121, 122]) 4
          = .ret [80, 73, 78, 71]
              { exampleOS EINTR [] [120, 121, 122] with
                  trace := [Syscall.recv, Syscall.recv, Syscall.recv] }
      ∧ ∀ d os1, exampleSocket.RecvAll
            (exampleOS 0 [⟨2, 0⟩, ⟨-1, EINTR⟩, ⟨9, 0⟩] [80, 73, 78, 71, 120, 121, 122]) 4
            = .ret d os1 →
          d.length = 4
          ∧ d = (exampleOS 0 [⟨2, 0⟩, ⟨-1, EINTR⟩, ⟨9, 0⟩]
                  [80, 73, 78, 71, 120, 121, 122]).incoming.take 4
          ∧ os1.incoming = (exampleOS 0 [⟨2, 0⟩, ⟨-1, EINTR⟩, ⟨9, 0⟩]
                  [80, 73, 78, 71, 120, 121, 122]).incoming.drop 4
          ∧ ∃ calls, os1.trace = (exampleOS 0 [⟨2, 0⟩, ⟨-1, EINTR⟩, ⟨9, 0⟩]
                  [80, 73, 78, 71, 120, 121, 122]).trace ++ calls
              ∧ (¬ 0 < exampleSocket.timeout → Syscall.poll ∉ calls) :=
  ⟨by decide, by decide,
   (RecvAll_classification exampleSocket
      (exampleOS 0 [⟨2, 0⟩, ⟨-1, EINTR⟩, ⟨9, 0⟩] [80, 73, 78, 71, 120, 121, 122]) 4
      (by decide)).2.2.2.1⟩

/-! ## RecvUntil: overflow when the pattern is absent -/

/-- Invariant of the scan: when the bytes visited so far end with the first `j`
bytes of the pattern, an index reported by the rest of the scan is the end of
an occurrence of the pattern. -/
theorem Socket.IsContainPattern.scan_sound (pattern : List Byte) (hp : pattern ≠ []) :
    ∀ (rest pre : List Byte) (j k : Nat),
      j < pattern.length → pattern.take j <:+ pre →
      Socket.IsContainPattern.scan pattern rest pre.length j = some k →
      pre.length ≤ k ∧ k < pre.length + rest.length
        ∧ pattern <:+ (pre ++ rest).take (k + 1) := by
  intro rest
  induction rest with
  | nil => intro pre j k _ _ h; simp [Socket.IsContainPattern.scan] at h
  | cons b rest ih =>
    intro pre j k hj hsuf h
    have hplen : 0 < pattern.length := List.length_pos.mpr hp
    have hpre : (pre ++ [b]).length = pre.length + 1 := by simp
    rw [Socket.IsContainPattern.scan] at h
    by_cases hb : pattern[j]? = some b
    · have htake : pattern.take (j + 1) = pattern.take j ++ [b] := by
        rw [List.take_succ, hb]; rfl
      have hsuf1 : pattern.take (j + 1) <:+ pre ++ [b] := by
        obtain ⟨t, ht⟩ := hsuf
        exact ⟨t, by rw [htake, ← List.append_assoc, ht]⟩
      rw [if_pos hb] at h
      by_cases hlast : j = pattern.length - 1
      · rw [if_pos hlast] at h
        simp only [Option.some.injEq] at h
        subst h
        have hfull : pattern.take (j + 1) = pattern := List.take_of_length_le (by omega)
        refine ⟨le_refl _, by simp, ?_⟩
        have : (pre ++ b :: rest).take (pre.length + 1) = pre ++ [b] := by
          rw [List.take_append_eq_append_take]
          simp
        rw [this, ← hfull]
        exact hsuf1
      · rw [if_neg hlast, ← hpre] at h
        obtain ⟨h1, h2, h3⟩ := ih (pre ++ [b]) (j + 1) k (by omega) hsuf1 h
        refine ⟨by omega, by simp at h2 ⊢; omega, ?_⟩
        simpa using h3
    · rw [if_neg hb, ← hpre] at h
      obtain ⟨h1, h2, h3⟩ := ih (pre ++ [b]) 0 k hplen ⟨pre ++ [b], by simp⟩ h
      refine ⟨by omega, by simp at h2 ⊢; omega, ?_⟩
      simpa using h3

/-- A buffer in which the pattern does not occur makes `IsContainPattern`
answer `-1`. -/
theorem Socket.IsContainPattern_absent (buf pattern : List Byte)
    (h : ¬ pattern <:+: buf) : Socket.IsContainPattern buf pattern = -1 := by
  rw [Socket.IsContainPattern]
  split_ifs with h1 h2 h3
  · rfl
  · rfl
  · rfl
  · cases hs : Socket.IsContainPattern.scan pattern buf 0 0 with
    | none => rfl
    | some k =>
      exfalso
      have hp : pattern ≠ [] := fun h0 => h3 (by simp [h0])
      obtain ⟨_, _, t, ht⟩ := Socket.IsContainPattern.scan_sound pattern hp buf [] 0 k
        (List.length_pos.mpr hp) ⟨[], by simp⟩ hs
      apply h
      refine ⟨t, buf.drop (k + 1), ?_⟩
      simp only [List.nil_append] at ht
      rw [ht, List.take_append_drop]

/-- A returning `steps` leaves a tail of the kernel's answers. -/
theorem Socket.RecvAll.recv_steps_future (s : Socket) :
    ∀ (fuel need : Nat) (os : OS) (d : List Byte) (os1 : OS),
      Socket.RecvAll.steps s fuel need os = .ret d os1 →
      ∃ m, os.future.drop m = os1.future := by
  intro fuel
  induction fuel with
  | zero => intro need os d os1 h; simp [Socket.RecvAll.steps] at h
  | succ fuel ih =>
    intro need os d os1 h
    rw [Socket.RecvAll.steps] at h
    cases hw : s.RecvTimeoutWrapper os need false with
    | blocked => simp [hw] at h
    | throw e0 os0 => simp [hw] at h
    | ret v os0 =>
      obtain ⟨r, bytes⟩ := v
      obtain ⟨_, ⟨m0, hm0, _, _⟩, _⟩ := Socket.RecvTimeoutWrapper_ret s os os0 need false r bytes hw
      simp only [hw] at h
      split_ifs at h
      · obtain ⟨m, hm⟩ := ih need os0 d os1 h
        exact ⟨m + m0, by rw [← hm, ← hm0, List.drop_drop]; congr 1; omega⟩
      · simp only [Outcome.ret.injEq] at h
        exact ⟨m0, by rw [hm0, h.2]⟩
      · cases hst : Socket.RecvAll.steps s fuel (need - r.toNat) os0 with
        | blocked => simp [hst, Outcome.map] at h
        | throw e2 os2 => simp [hst, Outcome.map] at h
        | ret d2 os2 =>
          simp only [hst, Outcome.map, Outcome.ret.injEq] at h
          obtain ⟨m, hm⟩ := ih _ os0 d2 os2 hst
          exact ⟨m + m0, by rw [← h.2, ← hm, ← hm0, List.drop_drop]; congr 1; omega⟩

/-- What a returning `RecvAllBuf` of a positive length has done: the first `len`
unread bytes are stored at `off` and have left the stream. -/
theorem Socket.RecvAllBuf_ret (s : Socket) (os os1 : OS) (buf buf1 : List Byte) (off len : Nat)
    (hlen : 0 < len) (hoff : off ≤ buf.length)
    (h : s.RecvAllBuf os buf off len = .ret buf1 os1) :
    buf1 = writeAt buf off (os.incoming.take len) ∧ len ≤ os.incoming.length
      ∧ os1.incoming = os.incoming.drop len ∧ os1.future.length ≤ os.future.length := by
  rw [Socket.RecvAllBuf, if_neg (by omega),
    Socket.RecvAll.recv_loop_eq_steps s off _ buf 0 len 0 os (by omega) hlen (by omega)] at h
  cases hst : Socket.RecvAll.steps s (os.future.length + 1) len os with
  | blocked => simp [hst, Outcome.map] at h
  | throw e2 os2 => simp [hst, Outcome.map] at h
  | ret d os2 =>
    simp only [hst, Outcome.map, Outcome.ret.injEq, Nat.add_zero] at h
    obtain ⟨hb, ho⟩ := h
    subst hb ho
    obtain ⟨hd, hd2, hinc, _⟩ := (Socket.RecvAll.recv_steps_end s _ len os hlen).1 d os2 hst
    obtain ⟨m, hm⟩ := Socket.RecvAll.recv_steps_future s _ len os d os2 hst
    refine ⟨by rw [hd2], ?_, hinc, ?_⟩
    · have := congrArg List.length hd2
      simp only [List.length_take] at this
      omega
    · rw [← hm]; simp

/-- When every kernel answer is positive and the stream holds bytes, a
`RecvTimeoutWrapper` call with two answers at hand returns at least one byte. -/
theorem Socket.RecvTimeoutWrapper_progress (s : Socket) (os : OS) (len : Nat) (peek : Bool)
    (hlen : 0 < len) (hinc : 0 < os.incoming.length)
    (hposv : ∀ r ∈ os.future, 0 < r.ret) (hfut : 2 ≤ os.future.length) :
    ∃ r bytes os1, s.RecvTimeoutWrapper os len peek = .ret (r, bytes) os1 ∧ 0 < r := by
  obtain ⟨a, rest, hf⟩ : ∃ a rest, os.future = a :: rest := by
    cases hf : os.future with
    | nil => simp [hf] at hfut
    | cons a rest => exact ⟨a, rest, rfl⟩
  obtain ⟨b, rest2, hf2⟩ : ∃ b rest2, rest = b :: rest2 := by
    cases hr : rest with
    | nil => simp [hf, hr] at hfut
    | cons b rest2 => exact ⟨b, rest2, rfl⟩
  subst hf2
  have ha : 0 < a.ret := hposv a (by simp [hf])
  have hb : 0 < b.ret := hposv b (by simp [hf])
  have ha1 : ¬ a.ret < 0 := by omega
  have ha2 : ¬ a.ret = 0 := by omega
  have hb1 : ¬ b.ret < 0 := by omega
  have h10 : ¬ (1 : Int) = 0 := by decide
  have h11 : ¬ (1 : Int) = -1 := by decide
  by_cases ht : 0 < s.timeout
  · refine ⟨_, _, _, by simp only [Socket.RecvTimeoutWrapper, Socket.ApplyRecvTimeout, ht,
      if_true, sysPoll, hf, ha1, ha2, if_false, h10, h11, sysRecv, hb1]; rfl, ?_⟩
    simp only [List.length_take, Nat.cast_pos]
    omega
  · refine ⟨_, _, _, by simp only [Socket.RecvTimeoutWrapper, Socket.ApplyRecvTimeout, ht,
      if_false, sysRecv, hf, ha1]; rfl, ?_⟩
    simp only [List.length_take, Nat.cast_pos]
    omega

/-- When every kernel answer is positive, the stream holds `need` bytes and
`2 * need` answers are at hand, `steps` returns, having used at most that many
answers. -/
theorem Socket.RecvAll.recv_steps_progress (s : Socket) :
    ∀ (fuel need : Nat) (os : OS), 0 < need → need ≤ os.incoming.length →
      (∀ r ∈ os.future, 0 < r.ret) → 2 * need ≤ os.future.length → os.future.length < fuel →
      ∃ d os1, Socket.RecvAll.steps s fuel need os = .ret d os1
        ∧ ∃ m, m ≤ 2 * need ∧ os.future.drop m = os1.future := by
  intro fuel
  induction fuel with
  | zero => intro need os _ _ _ _ h; omega
  | succ fuel ih =>
    intro need os hneed hinc hposv hfut hfuel
    obtain ⟨r, bytes, os0, hw, hr⟩ :=
      Socket.RecvTimeoutWrapper_progress s os need false hneed (by omega) hposv (by omega)
    obtain ⟨hlt, ⟨m0, hm0, _, hm2⟩, _, hpos, _⟩ :=
      Socket.RecvTimeoutWrapper_ret s os os0 need false r bytes hw
    obtain ⟨hrb, hble, hbytes, hinc0⟩ := hpos (by omega)
    simp only [Bool.false_eq_true, if_false] at hinc0
    rw [Socket.RecvAll.steps, hw]
    have h1 : ¬ r < 0 := by omega
    have h2 : ¬ r = 0 := by omega
    simp only [h1, h2, if_false]
    by_cases hall : need ≤ r.toNat
    · rw [if_pos hall]
      exact ⟨bytes, os0, rfl, m0, by omega, hm0⟩
    · rw [if_neg hall]
      have hrn : r.toNat = bytes.length := by omega
      have hlen0 : os0.future.length = os.future.length - m0 := by
        rw [← hm0]; simp
      have hposv0 : ∀ x ∈ os0.future, 0 < x.ret := by
        intro x hx
        rw [← hm0] at hx
        exact hposv x (List.mem_of_mem_drop hx)
      obtain ⟨d, os1, hst, m, hm, hdrop⟩ := ih (need - r.toNat) os0 (by omega)
        (by rw [hinc0]; simp only [List.length_drop]; omega) hposv0 (by omega) (by omega)
      refine ⟨bytes ++ d, os1, by rw [hst]; rfl, m + m0, by omega, ?_⟩
      rw [← hdrop, ← hm0, List.drop_drop]
      congr 1
      omega

/-- The part of the buffer up to the end of a write. -/
theorem writeAt_take (buf : List Byte) (off : Nat) (x : List Byte) (h : off ≤ buf.length) :
    (writeAt buf off x).take (off + x.length) = buf.take off ++ x := by
  have h1 : (buf.take off ++ x).length = off + x.length := by simp [h]
  rw [writeAt, List.take_left' h1]

/-- A write inside the buffer keeps its length. -/
theorem writeAt_length (buf : List Byte) (off : Nat) (x : List Byte)
    (h : off + x.length ≤ buf.length) : (writeAt buf off x).length = buf.length := by
  simp only [writeAt, List.length_append, List.length_take, List.length_drop]
  omega

/-- One pass of the loop of `RecvUntil` on a stream `inc` of which `total` bytes
are consumed and stored: the bytes peeked extend the stored copy of the stream,
and so does the buffer after the `RecvAll` that consumes them. -/
theorem Socket.RecvUntil.pass (s : Socket) (inc buf : List Byte) (total : Nat)
    (bytesleft r : Int) (bytes : List Byte) (os os1 : OS)
    (hbl : bytesleft = (buf.length : Int) - total) (htot : total ≤ buf.length)
    (hbuf : buf.take total = inc.take total) (hinc : os.incoming = inc.drop total)
    (hw : s.RecvTimeoutWrapper os bytesleft.toNat true = .ret (r, bytes) os1) (hr : 0 < r) :
    total + r.toNat ≤ buf.length ∧ total + r.toNat ≤ inc.length
      ∧ (writeAt buf total bytes).take (total + r.toNat) = inc.take (total + r.toNat)
      ∧ os1.future.length < os.future.length
      ∧ (∃ m, os.future.drop m = os1.future ∧ 0 < m ∧ m ≤ 2)
      ∧ ∀ buf2 os2, s.RecvAllBuf os1 (writeAt buf total bytes) total r.toNat = .ret buf2 os2 →
          buf2.length = buf.length ∧ buf2.take (total + r.toNat) = inc.take (total + r.toNat)
          ∧ os2.incoming = inc.drop (total + r.toNat)
          ∧ os2.future.length ≤ os1.future.length := by
  obtain ⟨hlt, hm, _, hpos, _⟩ :=
    Socket.RecvTimeoutWrapper_ret s os os1 bytesleft.toNat true r bytes hw
  obtain ⟨hrb, hble, hbytes, hinc1⟩ := hpos (by omega)
  simp only [if_true] at hinc1
  have hrn : r.toNat = bytes.length := by omega
  have hbinc : bytes.length ≤ inc.length - total := by
    have := congrArg List.length hbytes
    simp only [hinc, List.length_take, List.length_drop] at this
    omega
  have hb1 : total + bytes.length ≤ buf.length := by omega
  have hb2 : total + bytes.length ≤ inc.length := by omega
  have htake : (writeAt buf total bytes).take (total + bytes.length)
      = inc.take (total + bytes.length) := by
    rw [writeAt_take buf total bytes htot, hbuf, List.take_add, ← hinc, ← hbytes]
  rw [hrn]
  refine ⟨hb1, hb2, htake, hlt, hm, ?_⟩
  intro buf2 os2 h2
  have hlen1 : (writeAt buf total bytes).length = buf.length := writeAt_length _ _ _ hb1
  obtain ⟨hbuf2, _, hinc2, hfut2⟩ := Socket.RecvAllBuf_ret s os1 os2 _ buf2 total bytes.length
    (by omega) (by omega) h2
  have hsame : os1.incoming.take bytes.length = bytes := by
    rw [hinc1, ← hbytes]
  rw [hsame] at hbuf2
  refine ⟨?_, ?_, ?_, hfut2⟩
  · rw [hbuf2, writeAt_length _ _ _ (by omega), hlen1]
  · rw [hbuf2, writeAt_take _ total bytes (by omega), ← htake]
    have h3 : (writeAt buf total bytes).take total = buf.take total := by
      rw [writeAt, List.append_assoc, List.take_left' (by simp [htot])]
    rw [h3, writeAt_take buf total bytes htot]
  · rw [hinc2, hinc1, hinc, List.drop_drop]

/-- While the pattern is not found in any leading part of the stream that fits
the buffer, the loop of `RecvUntil` does not return normally. -/
theorem Socket.RecvUntil.loop_absent (s : Socket) (pattern inc : List Byte) (maxlen : Nat)
    (hscan : ∀ n, n ≤ maxlen → Socket.IsContainPattern (inc.take n) pattern < 0) :
    ∀ (fuel : Nat) (buf : List Byte) (total : Nat) (bytesleft patternidx : Int) (os : OS),
      buf.length = maxlen → total ≤ maxlen → bytesleft = (maxlen : Int) - total →
      buf.take total = inc.take total → os.incoming = inc.drop total →
      ∀ x os1, Socket.RecvUntil.loop s pattern fuel buf total bytesleft patternidx os
        ≠ .ret x os1 := by
  intro fuel
  induction fuel with
  | zero => intro buf total bl pidx os _ _ _ _ _ x os1; simp [Socket.RecvUntil.loop]
  | succ fuel ih =>
    intro buf total bl pidx os hlen htot hbl hbuf hinc x os1
    rw [Socket.RecvUntil.loop]
    by_cases h0 : bl ≤ 0
    · rw [if_pos h0]; simp
    · rw [if_neg h0]
      cases hw : s.RecvTimeoutWrapper os bl.toNat true with
      | blocked => simp
      | throw e0 os0 => simp
      | ret v os0 =>
        obtain ⟨r, bytes⟩ := v
        simp only
        by_cases hr : r < 0
        · obtain ⟨_, _, hneg, _, _⟩ :=
            Socket.RecvTimeoutWrapper_ret s os os0 bl.toNat true r bytes hw
          simp only [hr, if_true]
          split_ifs
          · exact ih buf total bl pidx os0 hlen htot hbl hbuf (by rw [(hneg hr).2, hinc]) x os1
          · simp [Socket.RecvUntil.finish]
          · simp [Socket.RecvUntil.finish]
        · simp only [hr, if_false]
          by_cases hz : r = 0
          · simp [hz, Socket.RecvUntil.finish]
          · simp only [hz, if_false]
            obtain ⟨h1, h2, h3, _, _, h4⟩ := Socket.RecvUntil.pass s inc buf total bl r bytes
              os os0 (by rw [hlen]; exact hbl) (by omega) hbuf hinc hw (by omega)
            have hneg := hscan (total + r.toNat) (by omega)
            rw [← h3] at hneg
            rw [if_pos hneg]
            cases hra : s.RecvAllBuf os0 (writeAt buf total bytes) total r.toNat with
            | blocked => simp
            | throw e2 os2 => simp
            | ret buf2 os2 =>
              obtain ⟨h5, h6, h7, _⟩ := h4 buf2 os2 hra
              simp only
              exact ih buf2 (total + r.toNat) (bl - r) _ os2 (by omega) (by omega)
                (by rw [hbl]; push_cast; omega) h6 h7 x os1

/-- When every kernel answer is positive, the stream holds `len` bytes and
`2 * len` answers are at hand, `RecvAllBuf` returns, having used at most that
many answers. -/
theorem Socket.RecvAllBuf_progress (s : Socket) (os : OS) (buf : List Byte) (off len : Nat)
    (hlen : 0 < len) (hoff : off ≤ buf.length) (hinc : len ≤ os.incoming.length)
    (hposv : ∀ r ∈ os.future, 0 < r.ret) (hfut : 2 * len ≤ os.future.length) :
    ∃ buf1 os1, s.RecvAllBuf os buf off len = .ret buf1 os1
      ∧ ∃ m, m ≤ 2 * len ∧ os.future.drop m = os1.future := by
  obtain ⟨d, os1, hst, hm⟩ := Socket.RecvAll.recv_steps_progress s (os.future.length + 1) len os
    hlen hinc hposv hfut (by omega)
  refine ⟨writeAt buf (off + 0) d, os1, ?_, hm⟩
  rw [Socket.RecvAllBuf, if_neg (by omega),
    Socket.RecvAll.recv_loop_eq_steps s off _ buf 0 len 0 os (by omega) hlen (by omega), hst]
  rfl

/-- When every kernel answer is positive, the stream supplies `maxlen` bytes in
no leading part of which the pattern is found, and four answers per missing
byte are at hand, the loop of `RecvUntil` consumes `maxlen` bytes and throws
`overflow_error`. -/
theorem Socket.RecvUntil.loop_overflow (s : Socket) (pattern inc : List Byte) (maxlen : Nat)
    (hscan : ∀ n, n ≤ maxlen → Socket.IsContainPattern (inc.take n) pattern < 0)
    (hmax : maxlen ≤ inc.length) :
    ∀ (fuel : Nat) (buf : List Byte) (total : Nat) (bytesleft patternidx : Int) (os : OS),
      buf.length = maxlen → total ≤ maxlen → bytesleft = (maxlen : Int) - total →
      buf.take total = inc.take total → os.incoming = inc.drop total →
      (∀ r ∈ os.future, 0 < r.ret) → 4 * (maxlen - total) ≤ os.future.length →
      os.future.length < fuel →
      ∃ os1, Socket.RecvUntil.loop s pattern fuel buf total bytesleft patternidx os
          = .throw .overflow_error os1
        ∧ os1.incoming = inc.drop maxlen := by
  intro fuel
  induction fuel with
  | zero => intro buf total bl pidx os _ _ _ _ _ _ _ h; omega
  | succ fuel ih =>
    intro buf total bl pidx os hlen htot hbl hbuf hinc hposv hfut hfuel
    rw [Socket.RecvUntil.loop]
    by_cases h0 : bl ≤ 0
    · rw [if_pos h0]
      have : total = maxlen := by omega
      exact ⟨os, rfl, by rw [hinc, this]⟩
    · rw [if_neg h0]
      have hinclen : 0 < os.incoming.length := by
        rw [hinc]; simp only [List.length_drop]; omega
      obtain ⟨r, bytes, os0, hw, hr⟩ := Socket.RecvTimeoutWrapper_progress s os bl.toNat true
        (by omega) hinclen hposv (by omega)
      obtain ⟨h1, h2, h3, h4, ⟨m0, hm0, _, hm2⟩, h5⟩ := Socket.RecvUntil.pass s inc buf total
        bl r bytes os os0 (by rw [hlen]; exact hbl) (by omega) hbuf hinc hw hr
      obtain ⟨_, _, _, hpos, _⟩ := Socket.RecvTimeoutWrapper_ret s os os0 bl.toNat true r bytes hw
      obtain ⟨hrb, _, _, hinc0⟩ := hpos (by omega)
      simp only [if_true] at hinc0
      have hneg := hscan (total + r.toNat) (by omega)
      rw [← h3] at hneg
      have hr1 : ¬ r < 0 := by omega
      have hr2 : ¬ r = 0 := by omega
      have hlen0 : os0.future.length = os.future.length - m0 := by rw [← hm0]; simp
      have hposv0 : ∀ x ∈ os0.future, 0 < x.ret := by
        intro x hx
        rw [← hm0] at hx
        exact hposv x (List.mem_of_mem_drop hx)
      have hrpos : 0 < r.toNat := by omega
      obtain ⟨buf2, os2, hra, m, hm, hdrop⟩ := Socket.RecvAllBuf_progress s os0
        (writeAt buf total bytes) total r.toNat hrpos
        (by rw [writeAt_length _ _ _ (by omega)]; omega)
        (by rw [hinc0, hinc]; simp only [List.length_drop]; omega) hposv0 (by omega)
      obtain ⟨h6, h7, h8, _⟩ := h5 buf2 os2 hra
      have hlen2 : os2.future.length = os0.future.length - m := by rw [← hdrop]; simp
      have hposv2 : ∀ x ∈ os2.future, 0 < x.ret := by
        intro x hx
        rw [← hdrop] at hx
        exact hposv0 x (List.mem_of_mem_drop hx)
      simp only [hw, hr1, hr2, if_false, hneg, if_true, hra]
      exact ih buf2 (total + r.toNat) (bl - r) _ os2 (by omega) (by omega)
        (by rw [hbl]; push_cast; omega) h7 h8 hposv2 (by omega) (by omega)

/-- Overflow when no call is interrupted: when the pattern is empty or does not
occur within the first `maxlen` bytes of the incoming stream,
`RecvUntil(pattern, maxlen)` never returns a result, whatever the kernel
answers; when moreover every answer of the kernel is positive, the stream
holds `maxlen` bytes and four answers per byte are at hand, it consumes
`maxlen` bytes and throws `overflow_error`.  With `maxlen = 0` it throws
`overflow_error` without any system call, for every pattern and every
state. -/
theorem RecvUntil_overflow (patternidx0 : Int) (s : Socket) (os : OS) (pattern : List Byte)
    (maxlen : Nat) (habsent : pattern = [] ∨ ¬ pattern <:+: os.incoming.take maxlen) :
    (∀ d os1, s.RecvUntil patternidx0 os pattern maxlen ≠ .ret d os1)
    ∧ (maxlen ≤ os.incoming.length → (∀ r ∈ os.future, 0 < r.ret) →
        4 * maxlen ≤ os.future.length →
        ∃ os1, s.RecvUntil patternidx0 os pattern maxlen = .throw .overflow_error os1
          ∧ os1.incoming = os.incoming.drop maxlen)
    ∧ (∀ (pattern0 : List Byte) (os0 : OS),
        s.RecvUntil patternidx0 os0 pattern0 0 = .throw .overflow_error os0) := by
  have hscan : ∀ n, n ≤ maxlen →
      Socket.IsContainPattern (os.incoming.take n) pattern < 0 := by
    intro n hn
    rcases habsent with hempty | habsent
    · subst hempty
      simp [Socket.IsContainPattern]
    rw [Socket.IsContainPattern_absent]
    · decide
    · rintro ⟨a, b, hab⟩
      apply habsent
      refine ⟨a, b ++ (os.incoming.take maxlen).drop n, ?_⟩
      rw [← List.append_assoc, hab]
      have : os.incoming.take n = (os.incoming.take maxlen).take n := by
        rw [List.take_take, Nat.min_eq_left hn]
      rw [this, List.take_append_drop]
  refine ⟨?_, ?_, ?_⟩
  · intro d os1 h
    simp only [Socket.RecvUntil, Socket.RecvUntilBuf, List.length_replicate] at h
    cases hl : Socket.RecvUntil.loop s pattern (os.future.length + 1) (List.replicate maxlen 0) 0
        (maxlen : Int) patternidx0 os with
    | blocked => simp [hl] at h
    | throw e os2 => simp [hl] at h
    | ret x os2 =>
      exact Socket.RecvUntil.loop_absent s pattern os.incoming maxlen hscan _ _ 0 _ _ os
        (by simp) (by omega) (by simp) (by simp) (by simp) x os2 hl
  · intro hmax hposv hfut
    obtain ⟨os1, hl, hinc⟩ := Socket.RecvUntil.loop_overflow s pattern os.incoming maxlen hscan
      hmax (os.future.length + 1) (List.replicate maxlen 0) 0
      (maxlen : Int) patternidx0 os
      (by simp) (by omega) (by simp) (by simp) (by simp) hposv (by omega) (by omega)
    exact ⟨os1, by simp only [Socket.RecvUntil, Socket.RecvUntilBuf, List.length_replicate, hl],
      hinc⟩
  · intro pattern0 os0
    simp [Socket.RecvUntil, Socket.RecvUntilBuf, Socket.RecvUntil.loop]

/-- Witness of `RecvUntil_overflow`: the pattern "PONG" does not occur in the
first 4 bytes of "xxPONGyyy"; with all kernel answers positive,
`RecvUntil("PONG", 4)` consumes "xxPO" and throws `overflow_error`. -/
theorem RecvUntil_overflow_witness :
    ¬ ([80, 79, 78, 71] : List Byte) <:+:
        (exampleOS 0 (List.replicate 16 ⟨2, 0⟩)
          [120, 120, 80, 79, 78, 71, 121, 121, 121]).incoming.take 4
      ∧ ∃ os1, exampleSocket.RecvUntil (-1)
            (exampleOS 0 (List.replicate 16 ⟨2, 0⟩) [120, 120, 80, 79, 78, 71, 121, 121, 121])
            [80, 79, 78, 71] 4
          = .throw .overflow_error os1
        ∧ os1.incoming = (exampleOS 0 (List.replicate 16 ⟨2, 0⟩)
            [120, 120, 80, 79, 78, 71, 121, 121, 121]).incoming.drop 4 :=
  have habs : ¬ ([80, 79, 78, 71] : List Byte) <:+:
      (exampleOS 0 (List.replicate 16 ⟨2, 0⟩)
        [120, 120, 80, 79, 78, 71, 121, 121, 121]).incoming.take 4 := by
    decide
  ⟨habs, (RecvUntil_overflow (-1) exampleSocket
      (exampleOS 0 (List.replicate 16 ⟨2, 0⟩) [120, 120, 80, 79, 78, 71, 121, 121, 121])
      [80, 79, 78, 71] 4 (Or.inr habs)).2.1 (by decide) (by decide) (by decide)⟩

/-- C3 (failing input): the pattern "PONG" does not occur in the first 4 bytes
of the stream "xxyyyyyyy", which holds more than 4 bytes.  When the first peek
of `RecvUntil("PONG", 4)` fails with `EINTR`, the loop test reads the local
`patternidx` that was never assigned: with the value 0 the loop ends and the
call throws `SocketConnectionClosedException` with nothing consumed, instead
of `overflow_error`.  With the value -1, or when the interruption comes after
the first pass, the call throws `overflow_error`. -/
theorem RecvUntil_interrupted_first_peek :
    (4 ≤ ([120, 120, 121, 121, 121, 121, 121, 121, 121] : List Byte).length
      ∧ ¬ ([80, 79, 78, 71] : List Byte) <:+:
          ([120, 120, 121, 121, 121, 121, 121, 121, 121] : List Byte).take 4)
    ∧ Socket.RecvUntil 0 exampleSocket
        (exampleOS 0 [⟨-1, EINTR⟩, ⟨4, 0⟩, ⟨4, 0⟩]
          [120, 120, 121, 121, 121, 121, 121, 121, 121]) [80, 79, 78, 71] 4
      = .throw .SocketConnectionClosedException
          { exampleOS EINTR [⟨4, 0⟩, ⟨4, 0⟩] [120, 120, 121, 121, 121, 121, 121, 121, 121] with
              trace := [Syscall.recvPeek] }
    ∧ Socket.RecvUntil (-1) exampleSocket
        (exampleOS 0 [⟨-1, EINTR⟩, ⟨4, 0⟩, ⟨4, 0⟩]
          [120, 120, 121, 121, 121, 121, 121, 121, 121]) [80, 79, 78, 71] 4
      = .throw .overflow_error
          { exampleOS EINTR [] [121, 121, 121, 121, 121] with
              trace := [Syscall.recvPeek, Syscall.recvPeek, Syscall.recv] }
    ∧ Socket.RecvUntil 0 exampleSocket
        (exampleOS 0 [⟨2, 0⟩, ⟨2, 0⟩, ⟨-1, EINTR⟩, ⟨2, 0⟩, ⟨2, 0⟩]
          [120, 120, 121, 121, 121, 121, 121, 121, 121]) [80, 79, 78, 71] 4
      = .throw .overflow_error
          { exampleOS EINTR [] [121, 121, 121, 121, 121] with
              trace := [Syscall.recvPeek, Syscall.recv, Syscall.recvPeek, Syscall.recvPeek,
                        Syscall.recv] } := by
  refine ⟨⟨by decide, by decide⟩, by decide, by decide, by decide⟩

/-! ## Round trip on a non-empty payload -/

/-- Under a fragmentation of the data that remain, `steps` of `SendAll`
returns. -/
theorem Socket.SendAll.send_steps_progress :
    ∀ (fuel : Nat) (data : List Byte) (os : OS), data ≠ [] →
      Fragmentation data.length os.future → os.future.length < fuel →
      ∃ os1, Socket.SendAll.steps fuel data os = .ret () os1 := by
  intro fuel
  induction fuel with
  | zero => intro data os _ _ h; omega
  | succ fuel ih =>
    intro data os hdata hfrag hfuel
    have hlen : 0 < data.length := List.length_pos.mpr hdata
    obtain ⟨hall, hcount⟩ := hfrag
    rw [Socket.SendAll.steps]
    cases hf : os.future with
    | nil => simp [hf] at hcount; exact absurd hcount hdata
    | cons r rest =>
      rw [hf] at hall hcount
      have hrest : rest.length < fuel := by simp [hf] at hfuel; omega
      have hallrest : ∀ x ∈ rest, x.transfers = true ∨ x.interrupted = true :=
        fun x hx => hall x (List.mem_cons_of_mem _ hx)
      rcases hall r (List.mem_cons_self _ _) with ht | hi
      · have hr : 0 < r.ret := by simpa [SysRet.transfers] using ht
        have hr1 : ¬ r.ret < 0 := by omega
        have hk : 0 < min r.ret.toNat data.length := by
          have : 0 < r.ret.toNat := by omega
          omega
        have h2 : ¬ ((min r.ret.toNat data.length : Nat) : Int) < 0 := by omega
        have h3 : ¬ ((min r.ret.toNat data.length : Nat) : Int) = 0 := by omega
        simp only [sysSend, hf, hr1, if_false, h2, h3, Int.toNat_ofNat]
        by_cases hfull : data.length ≤ min r.ret.toNat data.length
        · rw [if_pos hfull]; exact ⟨_, rfl⟩
        · rw [if_neg hfull]
          rw [List.countP_cons_of_pos _ _ ht] at hcount
          apply ih
          · intro h0
            have := congrArg List.length h0
            simp only [List.length_drop, List.length_nil] at this
            omega
          · exact ⟨hallrest, by simp only [List.length_drop]; omega⟩
          · exact hrest
      · have hi2 : r.ret < 0 ∧ r.err = EINTR := by simpa [SysRet.interrupted] using hi
        have hnt : ¬ r.transfers = true := by
          simp only [SysRet.transfers, decide_eq_true_eq]; omega
        have hneg : (-1 : Int) < 0 := by decide
        simp only [sysSend, hf, hi2.1, hi2.2, if_true, hneg]
        rw [List.countP_cons_of_neg _ _ hnt] at hcount
        exact ih data _ hdata ⟨hallrest, hcount⟩ hrest

/-- Under a fragmentation of the bytes still needed, on a socket without
timeout whose stream holds these bytes, `steps` of `RecvAll` returns. -/
theorem Socket.RecvAll.recv_steps_interrupted (s : Socket) (ht : ¬ 0 < s.timeout) :
    ∀ (fuel need : Nat) (os : OS), 0 < need → need ≤ os.incoming.length →
      Fragmentation need os.future → os.future.length < fuel →
      ∃ d os1, Socket.RecvAll.steps s fuel need os = .ret d os1 := by
  intro fuel
  induction fuel with
  | zero => intro need os _ _ _ h; omega
  | succ fuel ih =>
    intro need os hneed hinc hfrag hfuel
    obtain ⟨hall, hcount⟩ := hfrag
    rw [Socket.RecvAll.steps]
    cases hf : os.future with
    | nil => simp [hf] at hcount; omega
    | cons r rest =>
      rw [hf] at hall hcount
      have hrest : rest.length < fuel := by simp [hf] at hfuel; omega
      have hallrest : ∀ x ∈ rest, x.transfers = true ∨ x.interrupted = true :=
        fun x hx => hall x (List.mem_cons_of_mem _ hx)
      rcases hall r (List.mem_cons_self _ _) with htr | hi
      · have hr : 0 < r.ret := by simpa [SysRet.transfers] using htr
        have hr1 : ¬ r.ret < 0 := by omega
        have hbl : (os.incoming.take (min r.ret.toNat need)).length = min r.ret.toNat need := by
          simp only [List.length_take]; omega
        have hk : 0 < min r.ret.toNat need := by
          have : 0 < r.ret.toNat := by omega
          omega
        have h2 : ¬ ((min r.ret.toNat need : Nat) : Int) < 0 := by omega
        have h3 : ¬ ((min r.ret.toNat need : Nat) : Int) = 0 := by omega
        simp only [Socket.RecvTimeoutWrapper, Socket.ApplyRecvTimeout, ht, if_false, sysRecv, hf,
          hr1, hbl, h2, h3, Int.toNat_ofNat, Bool.false_eq_true]
        by_cases hfull : need ≤ min r.ret.toNat need
        · rw [if_pos hfull]; exact ⟨_, _, rfl⟩
        · rw [if_neg hfull]
          rw [List.countP_cons_of_pos _ _ htr] at hcount
          obtain ⟨d, os1, hst⟩ := ih (need - min r.ret.toNat need)
            { os with future := rest,
                      incoming := os.incoming.drop (min r.ret.toNat need),
                      trace := os.trace ++ [Syscall.recv] }
            (by omega) (by simp only [List.length_drop]; omega)
            ⟨hallrest, by show need - _ ≤ List.countP _ rest; omega⟩ hrest
          exact ⟨_, os1, by rw [hst]; rfl⟩
      · have hi2 : r.ret < 0 ∧ r.err = EINTR := by simpa [SysRet.interrupted] using hi
        have hnt : ¬ r.transfers = true := by
          simp only [SysRet.transfers, decide_eq_true_eq]; omega
        have hneg : (-1 : Int) < 0 := by decide
        simp only [Socket.RecvTimeoutWrapper, Socket.ApplyRecvTimeout, ht, if_false, sysRecv, hf,
          hi2.1, hi2.2, if_true, hneg]
        rw [List.countP_cons_of_neg _ _ hnt] at hcount
        exact ih need _ hneed hinc ⟨hallrest, hcount⟩ hrest

/-- Round trip on a non-empty payload: whatever the fragmentation of the
transfer on either side, `SendAll(P)` returns having handed the kernel exactly
the bytes of `P` in order, and `RecvAll(len(P))` on a socket without timeout
whose stream starts with these bytes returns exactly `P`. -/
theorem SendAll_RecvAll_roundtrip (n0 : Int) (a b : Socket) (osA osB : OS) (P : List Byte)
    (hP : P ≠ []) (hA : Fragmentation P.length osA.future)
    (hb : ¬ 0 < b.timeout) (hB : Fragmentation P.length osB.future) :
    ∃ osA1, a.SendAll n0 osA P = .ret () osA1 ∧ osA1.outgoing = osA.outgoing ++ P
      ∧ ∀ post, osB.incoming = P ++ post →
          ∃ osB1, b.RecvAll osB P.length = .ret P osB1 ∧ osB1.incoming = post := by
  have hlen : 0 < P.length := List.length_pos.mpr hP
  obtain ⟨osA1, hsend⟩ := Socket.SendAll.send_steps_progress (osA.future.length + 1) P osA hP hA
    (by omega)
  rw [← Socket.SendAll_eq_steps n0 a osA P hP] at hsend
  refine ⟨osA1, hsend, ?_, ?_⟩
  · rw [Socket.SendAll_eq_steps n0 a osA P hP] at hsend
    exact (Socket.SendAll.send_steps_end _ P osA hP).1 osA1 hsend
  · intro post hinc
    obtain ⟨d, osB1, hrecv⟩ := Socket.RecvAll.recv_steps_interrupted b hb
      (osB.future.length + 1) P.length osB hlen (by simp [hinc]) hB (by omega)
    obtain ⟨_, hd, hi, _⟩ := (Socket.RecvAll.recv_steps_end b _ P.length osB hlen).1 d osB1 hrecv
    rw [← Socket.RecvAll_eq_steps b osB P.length hlen] at hrecv
    rw [hinc] at hd hi
    simp only [List.take_left', List.drop_left'] at hd hi
    exact ⟨osB1, by rw [hrecv, hd], hi⟩

/-- Witness of `SendAll_RecvAll_roundtrip`: "PING" sent in pieces of 3 and 1
bytes with an interruption, received in pieces of 1, 2 and 1 bytes. -/
theorem SendAll_RecvAll_roundtrip_witness :
    ∃ osA1, exampleSocket.SendAll 0 (exampleOS 0 [⟨3, 0⟩, ⟨-1, EINTR⟩, ⟨1, 0⟩, ⟨7, 0⟩, ⟨7, 0⟩] [])
          [80, 73, 78, 71] = .ret () osA1
      ∧ osA1.outgoing = [80, 73, 78, 71]
      ∧ ∃ osB1, exampleSocket.RecvAll
            (exampleOS 0 [⟨1, 0⟩, ⟨2, 0⟩, ⟨-1, EINTR⟩, ⟨1, 0⟩, ⟨1, 0⟩] [80, 73, 78, 71])
            ([80, 73, 78, 71] : List Byte).length = .ret [80, 73, 78, 71] osB1
          ∧ osB1.incoming = [] := by
  obtain ⟨osA1, h1, h2, h3⟩ := SendAll_RecvAll_roundtrip 0 exampleSocket exampleSocket
    (exampleOS 0 [⟨3, 0⟩, ⟨-1, EINTR⟩, ⟨1, 0⟩, ⟨7, 0⟩, ⟨7, 0⟩] [])
    (exampleOS 0 [⟨1, 0⟩, ⟨2, 0⟩, ⟨-1, EINTR⟩, ⟨1, 0⟩, ⟨1, 0⟩] [80, 73, 78, 71])
    [80, 73, 78, 71] (by decide) ⟨by decide, by decide⟩ (by decide) ⟨by decide, by decide⟩
  exact ⟨osA1, h1, h2, h3 [] rfl⟩

/-! ## SendAll on an empty payload: the unassigned local -/

/-- C11 (failing input): with a payload of length 0 `SendAll` makes no system
call (the kernel state is untouched) and ends as the value of the local `n`,
which was never assigned, decides: it throws when that value is negative, here
`SocketConnectionClosedException` because `errno` happens to be `ECONNRESET`,
and returns otherwise. -/
theorem SendAll_zero_length_reads_unassigned_n :
    Socket.SendAll (-5) exampleSocket (exampleOS ECONNRESET [⟨4, 0⟩] []) []
        = .throw .SocketConnectionClosedException (exampleOS ECONNRESET [⟨4, 0⟩] [])
      ∧ Socket.SendAll 7 exampleSocket (exampleOS ECONNRESET [⟨4, 0⟩] []) []
        = .ret () (exampleOS ECONNRESET [⟨4, 0⟩] []) := by
  decide

/-! ## RecvUntil: the match pass within `int` range -/

/-- An index reported by the scan lies among the indices of the bytes visited. -/
theorem Socket.IsContainPattern.scan_bounds (pattern : List Byte) :
    ∀ (rest : List Byte) (i j k : Nat),
      Socket.IsContainPattern.scan pattern rest i j = some k → i ≤ k ∧ k < i + rest.length := by
  intro rest
  induction rest with
  | nil => intro i j k h; simp [Socket.IsContainPattern.scan] at h
  | cons b rest ih =>
    intro i j k h
    rw [Socket.IsContainPattern.scan] at h
    simp only [List.length_cons]
    split_ifs at h
    · simp only [Option.some.injEq] at h; omega
    · have := ih _ _ _ h; omega
    · have := ih _ _ _ h; omega

/-- The scan of a buffer decides the scan of every longer buffer up to the end
of the shorter one: an index found before that end is found in both. -/
theorem Socket.IsContainPattern.scan_append (pattern : List Byte) :
    ∀ (l1 l2 : List Byte) (i j k : Nat), k < i + l1.length →
      (Socket.IsContainPattern.scan pattern (l1 ++ l2) i j = some k
        ↔ Socket.IsContainPattern.scan pattern l1 i j = some k) := by
  intro l1
  induction l1 with
  | nil =>
    intro l2 i j k hk
    simp only [List.length_nil, Nat.add_zero] at hk
    constructor
    · intro h
      have := (Socket.IsContainPattern.scan_bounds pattern _ _ _ _ h).1
      omega
    · intro h; simp [Socket.IsContainPattern.scan] at h
  | cons b l1 ih =>
    intro l2 i j k hk
    simp only [List.length_cons] at hk
    simp only [List.cons_append, Socket.IsContainPattern.scan]
    split_ifs
    · rfl
    · exact ih l2 (i + 1) (j + 1) k (by omega)
    · exact ih l2 (i + 1) 0 k (by omega)

/-- An index below `2^31` is returned unchanged as `int`. -/
theorem toInt32_of_lt (i : Nat) (h : i < 2 ^ 31) : toInt32 (i : Int) = i := by
  have h1 : (i : Int) < 2147483648 := by exact_mod_cast h
  have h2 : (0 : Int) ≤ i := Int.natCast_nonneg i
  simp only [toInt32]
  norm_num
  omega

/-- The count `patternidx - (total - 1)` computed in `size_t` and stored in
`ssize_t` is the mathematical value `patternidx - total + 1` whenever
`total ≤ patternidx < 2^31`, also for `total = 0`. -/
theorem count_no_wrap (p : Int) (total : Nat) (h1 : (total : Int) ≤ p) (h2 : p < 2 ^ 31) :
    toSSizeT (toSizeT (toSizeT p - toSizeT ((total : Int) - 1))) = p - total + 1 := by
  have h3 : p < 2147483648 := by exact_mod_cast h2
  have h4 : (0 : Int) ≤ total := Int.natCast_nonneg total
  simp only [toSSizeT, toSizeT]
  norm_num
  omega

/-- When no match is reported on the first `total` bytes of a stream and a match
is reported on its first `m` bytes, `m` within `int` range, the index reported
is the end of an occurrence of the pattern, it lies in `[total, m)`, and it is
the index reported on the bytes up to and including it. -/
theorem Socket.IsContainPattern_match (inc pattern : List Byte) (total m : Nat)
    (hm : total ≤ m) (hminc : m ≤ inc.length) (hbound : m ≤ 2 ^ 31)
    (hprev : Socket.IsContainPattern (inc.take total) pattern < 0)
    (hmatch : ¬ Socket.IsContainPattern (inc.take m) pattern < 0) :
    ∃ k : Nat, Socket.IsContainPattern (inc.take m) pattern = (k : Int) ∧ total ≤ k ∧ k < m
      ∧ pattern ≠ [] ∧ pattern <:+ inc.take (k + 1)
      ∧ Socket.IsContainPattern (inc.take (k + 1)) pattern = (k : Int) := by
  have hneg1 : ((-1 : Int) < 0) := by decide
  have hlenm : (inc.take m).length = m := by simp [hminc]
  have hp : pattern ≠ [] := by
    intro h0
    apply hmatch
    simp [Socket.IsContainPattern, h0]
  have hplen : 0 < pattern.length := List.length_pos.mpr hp
  -- the scan of the first `m` bytes finds some index `k`
  obtain ⟨k, hk⟩ : ∃ k, Socket.IsContainPattern.scan pattern (inc.take m) 0 0 = some k := by
    cases hs : Socket.IsContainPattern.scan pattern (inc.take m) 0 0 with
    | some k => exact ⟨k, rfl⟩
    | none =>
      exfalso
      apply hmatch
      rw [Socket.IsContainPattern]
      split_ifs <;> simp [hs]
  obtain ⟨_, hkm, hsuf⟩ := Socket.IsContainPattern.scan_sound pattern hp (inc.take m) [] 0 k
    hplen ⟨[], by simp⟩ hk
  simp only [List.length_nil, Nat.zero_add, hlenm, List.nil_append] at hkm hsuf
  have hk31 : k < 2 ^ 31 := by omega
  have htk : (inc.take m).take (k + 1) = inc.take (k + 1) := by
    rw [List.take_take, Nat.min_eq_left (by omega)]
  rw [htk] at hsuf
  have hpk : pattern.length ≤ k + 1 := by
    obtain ⟨t, ht⟩ := hsuf
    have := congrArg List.length ht
    simp only [List.length_append, List.length_take] at this
    omega
  -- the value returned on a leading part that contains index `k`
  have hval : ∀ q, k < q → q ≤ m →
      Socket.IsContainPattern (inc.take q) pattern = (k : Int) := by
    intro q hkq hqm
    have hlenq : (inc.take q).length = q := by simp; omega
    have hsplit : inc.take m = inc.take q ++ (inc.take m).drop q := by
      have : inc.take q = (inc.take m).take q := by
        rw [List.take_take, Nat.min_eq_left hqm]
      rw [this, List.take_append_drop]
    have hsq : Socket.IsContainPattern.scan pattern (inc.take q) 0 0 = some k := by
      rw [hsplit] at hk
      exact (Socket.IsContainPattern.scan_append pattern _ _ 0 0 k (by omega)).mp hk
    rw [Socket.IsContainPattern, hsq]
    have h1 : ¬ (inc.take q).length < pattern.length := by omega
    have h2 : ¬ pattern.length = 0 := by omega
    simp only [h1, h2, if_false, and_false]
    exact toInt32_of_lt k hk31
  have hkm' : k < m := hkm
  refine ⟨k, hval m hkm' (le_refl _), ?_, hkm', hp, hsuf, hval (k + 1) (by omega) (by omega)⟩
  by_contra hlt
  have := hval total (by omega) hm
  rw [this] at hprev
  omega

/-- After a peek of `r` bytes in a pass of `RecvUntil`, a returning `RecvAll` of
`c` bytes, `0 < c ≤ r`, leaves the buffer a copy of the first `total + c` bytes
of the stream and has taken exactly these `c` bytes from the stream. -/
theorem Socket.RecvUntil.pass_consume (s : Socket) (inc buf : List Byte) (total : Nat)
    (bytesleft r : Int) (bytes : List Byte) (os os1 : OS)
    (hbl : bytesleft = (buf.length : Int) - total) (htot : total ≤ buf.length)
    (hbuf : buf.take total = inc.take total) (hinc : os.incoming = inc.drop total)
    (hw : s.RecvTimeoutWrapper os bytesleft.toNat true = .ret (r, bytes) os1) (hr : 0 < r)
    (c : Nat) (hc : 0 < c) (hcr : c ≤ r.toNat) (buf2 : List Byte) (os2 : OS)
    (h2 : s.RecvAllBuf os1 (writeAt buf total bytes) total c = .ret buf2 os2) :
    buf2.length = buf.length ∧ buf2.take (total + c) = inc.take (total + c)
      ∧ os2.incoming = inc.drop (total + c) := by
  obtain ⟨_, _, _, hpos, _⟩ :=
    Socket.RecvTimeoutWrapper_ret s os os1 bytesleft.toNat true r bytes hw
  obtain ⟨hrb, hble, hbytes, hinc1⟩ := hpos (by omega)
  simp only [if_true] at hinc1
  have hrn : r.toNat = bytes.length := by omega
  have hb1 : total + bytes.length ≤ buf.length := by omega
  have hlen1 : (writeAt buf total bytes).length = buf.length := writeAt_length _ _ _ hb1
  obtain ⟨hbuf2, hcinc, hinc2, _⟩ := Socket.RecvAllBuf_ret s os1 os2 _ buf2 total c
    hc (by omega) h2
  have hclen : (os1.incoming.take c).length = c := by
    simp only [List.length_take]; omega
  have h3 : (writeAt buf total bytes).take total = buf.take total := by
    rw [writeAt, List.append_assoc, List.take_left' (by simp [htot])]
  refine ⟨?_, ?_, ?_⟩
  · rw [hbuf2, writeAt_length _ _ _ (by rw [hclen, hlen1]; omega), hlen1]
  · have := writeAt_take (writeAt buf total bytes) total (os1.incoming.take c) (by omega)
    rw [hclen] at this
    rw [hbuf2, this, h3, hbuf, hinc1, hinc, List.take_add]
  · rw [hinc2, hinc1, hinc, List.drop_drop]

/-- C12, the match pass within `int` range: in a pass of `RecvUntil` on a buffer
of at most `2^31` bytes, after `total` bytes consumed on which no match was
reported, when the scan reports a match on the `r > 0` bytes peeked, the index
`patternidx` satisfies `total ≤ patternidx < total + r`, the count
`patternidx - (total - 1)` computed in `size_t` is the exact value, between 1
and `r`, so no more bytes are consumed than were peeked, and the pattern ends
at `patternidx`. -/
theorem RecvUntil_match_pass (s : Socket) (inc buf pattern : List Byte) (total : Nat)
    (bytesleft r : Int) (bytes : List Byte) (os os1 : OS)
    (hbound : buf.length ≤ 2 ^ 31)
    (hbl : bytesleft = (buf.length : Int) - total) (htot : total ≤ buf.length)
    (hbuf : buf.take total = inc.take total) (hinc : os.incoming = inc.drop total)
    (hprev : Socket.IsContainPattern (inc.take total) pattern < 0)
    (hw : s.RecvTimeoutWrapper os bytesleft.toNat true = .ret (r, bytes) os1) (hr : 0 < r)
    (hmatch : ¬ Socket.IsContainPattern ((writeAt buf total bytes).take (total + r.toNat))
                  pattern < 0) :
    ∃ k : Nat,
      Socket.IsContainPattern ((writeAt buf total bytes).take (total + r.toNat)) pattern = k
      ∧ total ≤ k ∧ (k : Int) < total + r
      ∧ toSSizeT (toSizeT (toSizeT (k : Int) - toSizeT ((total : Int) - 1)))
          = (k : Int) - total + 1
      ∧ 1 ≤ (k : Int) - total + 1 ∧ (k : Int) - total + 1 ≤ r
      ∧ (toSizeT ((k : Int) - total + 1)).toNat = k + 1 - total
      ∧ (toSizeT ((total : Int) + ((k : Int) - total + 1))).toNat = k + 1
      ∧ k + 1 ≤ buf.length ∧ k + 1 ≤ inc.length
      ∧ pattern ≠ [] ∧ pattern <:+ inc.take (k + 1)
      ∧ Socket.IsContainPattern (inc.take (k + 1)) pattern = k := by
  obtain ⟨h1, h2, h3, _⟩ := Socket.RecvUntil.pass s inc buf total bytesleft r bytes os os1
    hbl htot hbuf hinc hw hr
  rw [h3] at hmatch ⊢
  obtain ⟨k, hk, hk1, hk2, hp, hsuf, hval⟩ := Socket.IsContainPattern_match inc pattern total
    (total + r.toNat) (by omega) h2 (by omega) hprev hmatch
  have hk31 : (k : Int) < 2 ^ 31 := by
    have : k < 2 ^ 31 := by omega
    exact_mod_cast this
  have hk31' : (k : Int) < 2147483648 := by
    have : k < 2147483648 := by omega
    exact_mod_cast this
  refine ⟨k, hk, hk1, by omega, count_no_wrap k total (by exact_mod_cast hk1) hk31, by omega,
    by omega, ?_, ?_, by omega, by omega, hp, hsuf, hval⟩
  · simp only [toSizeT]
    norm_num
    omega
  · simp only [toSizeT]
    norm_num
    omega

/-- On a buffer of at most `2^31` bytes, when the loop of `RecvUntil` returns,
the length stored is that of a leading part of the stream that has been
consumed and stored, ends with the pattern, fits the buffer, and on which the
scan reports a match at its last index. -/
theorem Socket.RecvUntil.loop_success (s : Socket) (pattern inc : List Byte) (maxlen : Nat)
    (hbound : maxlen ≤ 2 ^ 31) :
    ∀ (fuel : Nat) (buf : List Byte) (total : Nat) (bytesleft patternidx : Int) (os : OS),
      buf.length = maxlen → total ≤ maxlen → bytesleft = (maxlen : Int) - total →
      buf.take total = inc.take total → os.incoming = inc.drop total →
      Socket.IsContainPattern (inc.take total) pattern < 0 →
      ∀ buf1 len1 os1,
        Socket.RecvUntil.loop s pattern fuel buf total bytesleft patternidx os
          = .ret (buf1, len1) os1 →
        total < len1 ∧ len1 ≤ maxlen ∧ len1 ≤ inc.length
          ∧ buf1.take len1 = inc.take len1 ∧ os1.incoming = inc.drop len1
          ∧ pattern ≠ [] ∧ pattern <:+ inc.take len1
          ∧ Socket.IsContainPattern (inc.take len1) pattern = (len1 : Int) - 1 := by
  intro fuel
  induction fuel with
  | zero =>
    intro buf total bl pidx os _ _ _ _ _ _ buf1 len1 os1 h
    simp [Socket.RecvUntil.loop] at h
  | succ fuel ih =>
    intro buf total bl pidx os hlen htot hbl hbuf hinc hprev buf1 len1 os1 h
    rw [Socket.RecvUntil.loop] at h
    by_cases h0 : bl ≤ 0
    · rw [if_pos h0] at h; simp at h
    · rw [if_neg h0] at h
      cases hw : s.RecvTimeoutWrapper os bl.toNat true with
      | blocked => simp [hw] at h
      | throw e0 os0 => simp [hw] at h
      | ret v os0 =>
        obtain ⟨r, bytes⟩ := v
        simp only [hw] at h
        by_cases hr : r < 0
        · obtain ⟨_, _, hneg, _, _⟩ :=
            Socket.RecvTimeoutWrapper_ret s os os0 bl.toNat true r bytes hw
          simp only [hr, if_true] at h
          split_ifs at h
          · exact ih buf total bl pidx os0 hlen htot hbl hbuf (by rw [(hneg hr).2, hinc]) hprev
              buf1 len1 os1 h
          · simp [Socket.RecvUntil.finish] at h
          · simp [Socket.RecvUntil.finish] at h
        · simp only [hr, if_false] at h
          by_cases hz : r = 0
          · simp [hz, Socket.RecvUntil.finish] at h
          · simp only [hz, if_false] at h
            have hrpos : 0 < r := by omega
            have hbl' : bl = (buf.length : Int) - total := by rw [hlen]; exact hbl
            obtain ⟨h1, h2, h3, _, _, h4⟩ := Socket.RecvUntil.pass s inc buf total bl r bytes
              os os0 hbl' (by omega) hbuf hinc hw hrpos
            by_cases hm : Socket.IsContainPattern
                ((writeAt buf total bytes).take (total + r.toNat)) pattern < 0
            · rw [if_pos hm] at h
              cases hra : s.RecvAllBuf os0 (writeAt buf total bytes) total r.toNat with
              | blocked => simp [hra] at h
              | throw e2 os2 => simp [hra] at h
              | ret buf2 os2 =>
                obtain ⟨h5, h6, h7, _⟩ := h4 buf2 os2 hra
                simp only [hra] at h
                rw [h3] at hm
                have := ih buf2 (total + r.toNat) (bl - r) _ os2 (by omega) (by omega)
                  (by rw [hbl]; push_cast; omega) h6 h7 hm buf1 len1 os1 h
                refine ⟨by omega, this.2⟩
            · rw [if_neg hm] at h
              obtain ⟨k, hk, hk1, hk2, hcount, hc1, hc2, hcn, htotal, hkb, hki, hp, hsuf, hval⟩ :=
                RecvUntil_match_pass s inc buf pattern total bl r bytes os os0
                  (by omega) hbl' (by omega) hbuf hinc hprev hw hrpos hm
              simp only [hk, hcount, hcn, htotal] at h
              cases hra : s.RecvAllBuf os0 (writeAt buf total bytes) total (k + 1 - total) with
              | blocked => simp [hra] at h
              | throw e2 os2 => simp [hra] at h
              | ret buf2 os2 =>
                obtain ⟨h5, h6, h7⟩ := Socket.RecvUntil.pass_consume s inc buf total bl r bytes
                  os os0 hbl' (by omega) hbuf hinc hw hrpos (k + 1 - total) (by omega)
                  (by omega) buf2 os2 hra
                have hcn1 : ¬ ((k : Int) - total + 1 < 0) := by omega
                have hcn2 : ¬ ((k : Int) - total + 1 = 0) := by omega
                simp only [hra, Socket.RecvUntil.finish, hcn1, hcn2, if_false, Outcome.ret.injEq,
                  Prod.mk.injEq] at h
                obtain ⟨⟨hb, hl⟩, ho⟩ := h
                subst hb hl ho
                have hsum : total + (k + 1 - total) = k + 1 := by omega
                rw [hsum] at h6 h7
                refine ⟨by omega, by omega, hki, h6, h7, hp, hsuf, ?_⟩
                rw [hval]; push_cast; omega

/-- C12 within `int` range: when `RecvUntil(pattern, maxlen)` with
`maxlen ≤ 2^31` returns, the bytes returned are the leading bytes of the
stream, exactly these bytes have been consumed, their number is at most
`maxlen` and equals `patternidx + 1` for the index the scan reports on them,
and they end with the pattern. -/
theorem RecvUntil_success (patternidx0 : Int) (s : Socket) (os os1 : OS)
    (pattern d : List Byte) (maxlen : Nat) (hbound : maxlen ≤ 2 ^ 31)
    (h : s.RecvUntil patternidx0 os pattern maxlen = .ret d os1) :
    d = os.incoming.take d.length ∧ 0 < d.length ∧ d.length ≤ maxlen
      ∧ os1.incoming = os.incoming.drop d.length
      ∧ (d.length : Int) = Socket.IsContainPattern d pattern + 1
      ∧ pattern ≠ [] ∧ pattern <:+ d := by
  simp only [Socket.RecvUntil, Socket.RecvUntilBuf, List.length_replicate] at h
  cases hl : Socket.RecvUntil.loop s pattern (os.future.length + 1) (List.replicate maxlen 0) 0
      (maxlen : Int) patternidx0 os with
  | blocked => simp [hl] at h
  | throw e os2 => simp [hl] at h
  | ret x os2 =>
    obtain ⟨buf1, len1⟩ := x
    simp only [hl, Outcome.ret.injEq] at h
    obtain ⟨hd, ho⟩ := h
    subst ho
    have hprev : Socket.IsContainPattern (os.incoming.take 0) pattern < 0 := by
      simp only [List.take_zero, Socket.IsContainPattern, List.length_nil]
      split_ifs <;> first | decide | omega
    obtain ⟨h1, h2, h3, h4, h5, h6, h7, h8⟩ := Socket.RecvUntil.loop_success s pattern os.incoming
      maxlen hbound _ _ 0 _ _ os (by simp) (by omega) (by simp) (by simp) (by simp) hprev
      buf1 len1 os2 hl
    have hdlen : d.length = len1 := by
      rw [← hd, h4]; simp; omega
    rw [hdlen, ← hd, h4]
    exact ⟨rfl, by omega, h2, h5, by rw [h8]; omega, h6, h7⟩

/-! ## RecvUntil: a match index beyond `int` range -/

/-- On an exhausted stream, when every kernel answer is positive and two are at
hand, `RecvTimeoutWrapper` returns 0: the peer has closed. -/
theorem Socket.RecvTimeoutWrapper_eof (s : Socket) (os : OS) (len : Nat) (peek : Bool)
    (hinc : os.incoming = [])
    (hposv : ∀ r ∈ os.future, 0 < r.ret) (hfut : 2 ≤ os.future.length) :
    ∃ os1, s.RecvTimeoutWrapper os len peek = .ret (0, []) os1 ∧ os1.incoming = [] := by
  obtain ⟨a, rest, hf⟩ : ∃ a rest, os.future = a :: rest := by
    cases hf : os.future with
    | nil => simp [hf] at hfut
    | cons a rest => exact ⟨a, rest, rfl⟩
  obtain ⟨b, rest2, hf2⟩ : ∃ b rest2, rest = b :: rest2 := by
    cases hr : rest with
    | nil => simp [hf, hr] at hfut
    | cons b rest2 => exact ⟨b, rest2, rfl⟩
  subst hf2
  have ha : 0 < a.ret := hposv a (by simp [hf])
  have hb : 0 < b.ret := hposv b (by simp [hf])
  have ha1 : ¬ a.ret < 0 := by omega
  have ha2 : ¬ a.ret = 0 := by omega
  have hb1 : ¬ b.ret < 0 := by omega
  have h10 : ¬ (1 : Int) = 0 := by decide
  have h11 : ¬ (1 : Int) = -1 := by decide
  by_cases ht : 0 < s.timeout
  · refine ⟨_, by simp only [Socket.RecvTimeoutWrapper, Socket.ApplyRecvTimeout, ht,
      if_true, sysPoll, hf, ha1, ha2, if_false, h10, h11, sysRecv, hb1, hinc, List.take_nil,
      List.length_nil, Nat.cast_zero]; rfl, ?_⟩
    cases peek <;> simp [hinc]
  · refine ⟨_, by simp only [Socket.RecvTimeoutWrapper, Socket.ApplyRecvTimeout, ht,
      if_false, sysRecv, hf, ha1, hinc, List.take_nil, List.length_nil, Nat.cast_zero]; rfl, ?_⟩
    cases peek <;> simp [hinc]

/-- A returning `RecvTimeoutWrapper` delivers no more bytes than some answer of
the kernel allows. -/
theorem Socket.RecvTimeoutWrapper_ret_le (s : Socket) (os os1 : OS) (len : Nat) (peek : Bool)
    (r : Int) (bytes : List Byte)
    (h : s.RecvTimeoutWrapper os len peek = .ret (r, bytes) os1) :
    ∃ a ∈ os.future, r ≤ max a.ret 0 := by
  have key : ∀ (o o1 : OS), sysRecv o len peek = some (r, bytes, o1) →
      ∃ a ∈ o.future, r ≤ max a.ret 0 := by
    intro o o1 hrecv
    simp only [sysRecv] at hrecv
    cases hf : o.future with
    | nil => simp [hf] at hrecv
    | cons a rest =>
      simp only [hf] at hrecv
      refine ⟨a, List.mem_cons_self _ _, ?_⟩
      by_cases ha : a.ret < 0
      · simp only [ha, if_true, Option.some.injEq, Prod.mk.injEq] at hrecv
        omega
      · simp only [ha, if_false, Option.some.injEq, Prod.mk.injEq] at hrecv
        obtain ⟨h1, _, _⟩ := hrecv
        rw [← h1]
        simp only [List.length_take]
        omega
  simp only [Socket.RecvTimeoutWrapper, Socket.ApplyRecvTimeout] at h
  by_cases ht : 0 < s.timeout
  · simp only [ht, if_true, sysPoll] at h
    cases hf : os.future with
    | nil => simp [hf] at h
    | cons p rest =>
      simp only [hf] at h
      by_cases hp : p.ret < 0
      · simp [hp] at h
      · by_cases hp0 : p.ret = 0
        · simp [hp0] at h
        · simp only [hp, hp0, if_false] at h
          have h10 : ¬ (1 : Int) = 0 := by decide
          have h11 : ¬ (1 : Int) = -1 := by decide
          simp only [h10, h11, if_false] at h
          split at h
          · simp at h
          · rename_i n1 b1 o1 hrecv
            simp only [Outcome.ret.injEq, Prod.mk.injEq] at h
            obtain ⟨⟨h1, h2⟩, h3⟩ := h
            subst h1 h2 h3
            obtain ⟨a, ha, hle⟩ := key _ _ hrecv
            exact ⟨a, List.mem_cons_of_mem _ ha, hle⟩
  · simp only [ht, if_false] at h
    split at h
    · simp at h
    · rename_i n1 b1 o1 hrecv
      simp only [Outcome.ret.injEq, Prod.mk.injEq] at h
      obtain ⟨⟨h1, h2⟩, h3⟩ := h
      subst h1 h2 h3
      exact key _ _ hrecv

/-- When more bytes are asked for than the stream holds, every kernel answer is
positive and two answers per byte and two more are at hand, `steps` of
`RecvAll` consumes the whole stream and throws
`SocketConnectionClosedException`. -/
theorem Socket.RecvAll.recv_steps_exhaust (s : Socket) :
    ∀ (fuel need : Nat) (os : OS), os.incoming.length < need →
      (∀ r ∈ os.future, 0 < r.ret) → 2 * (os.incoming.length + 1) ≤ os.future.length →
      os.future.length < fuel →
      ∃ os1, Socket.RecvAll.steps s fuel need os = .throw .SocketConnectionClosedException os1
        ∧ os1.incoming = [] := by
  intro fuel
  induction fuel with
  | zero => intro need os _ _ _ h; omega
  | succ fuel ih =>
    intro need os hneed hposv hfut hfuel
    rw [Socket.RecvAll.steps]
    by_cases hempty : os.incoming = []
    · obtain ⟨os0, hw, hinc0⟩ := Socket.RecvTimeoutWrapper_eof s os need false hempty hposv
        (by omega)
      rw [hw]
      exact ⟨os0, by simp, hinc0⟩
    · have hpos : 0 < os.incoming.length := List.length_pos.mpr hempty
      obtain ⟨r, bytes, os0, hw, hr⟩ := Socket.RecvTimeoutWrapper_progress s os need false
        (by omega) hpos hposv (by omega)
      obtain ⟨hlt, ⟨m0, hm0, _, hm2⟩, _, hp, _⟩ :=
        Socket.RecvTimeoutWrapper_ret s os os0 need false r bytes hw
      obtain ⟨hrb, hble, hbytes, hinc0⟩ := hp (by omega)
      simp only [Bool.false_eq_true, if_false] at hinc0
      have hbinc : bytes.length ≤ os.incoming.length := by
        have := congrArg List.length hbytes
        simp only [List.length_take] at this
        omega
      have h1 : ¬ r < 0 := by omega
      have h2 : ¬ r = 0 := by omega
      have h3 : ¬ need ≤ r.toNat := by omega
      have hlen0 : os0.future.length = os.future.length - m0 := by rw [← hm0]; simp
      have hposv0 : ∀ x ∈ os0.future, 0 < x.ret := by
        intro x hx
        rw [← hm0] at hx
        exact hposv x (List.mem_of_mem_drop hx)
      have hinclen : os0.incoming.length = os.incoming.length - bytes.length := by
        rw [hinc0]; simp
      obtain ⟨os1, hst, hfin⟩ := ih (need - r.toNat) os0 (by omega) hposv0 (by omega) (by omega)
      rw [hw]
      simp only [h1, h2, h3, if_false, hst, Outcome.map]
      exact ⟨os1, rfl, hfin⟩

/-- The count `patternidx - (total - 1)` for `patternidx = 0` and `total ≥ 2`:
negative as `ssize_t`, and close to `2^64` once passed to `RecvAll` as
`size_t`. -/
theorem count_wraps (total : Nat) (h1 : 2 ≤ total) (h2 : total < 2 ^ 63) :
    toSSizeT (toSizeT (toSizeT 0 - toSizeT ((total : Int) - 1))) = -((total : Int) - 1)
      ∧ (toSizeT (-((total : Int) - 1))).toNat = 2 ^ 64 + 1 - total := by
  have h3 : (total : Int) < 9223372036854775808 := by
    have : total < 9223372036854775808 := by omega
    exact_mod_cast this
  have h3n : total < 9223372036854775808 := by omega
  have h4 : (2 : Int) ≤ total := by exact_mod_cast h1
  constructor
  · simp only [toSSizeT, toSizeT]
    norm_num
    omega
  · simp only [toSizeT]
    norm_num
    omega

/-- A stream on which the scan reports nothing up to `T` bytes and index 0 on
`T + 1` bytes, `T` beyond `int` range: when one `recv` delivers fewer than
`2^31` bytes, every kernel answer is positive and enough answers are at hand,
the loop of `RecvUntil` with a buffer of `T + 1` bytes takes the reported
index for a match, asks `RecvAll` for a count close to `2^64`, consumes the
whole stream and throws `SocketConnectionClosedException`. -/
theorem Socket.RecvUntil.loop_index_wraps (s : Socket) (pattern inc : List Byte) (T : Nat)
    (hT : T + 1 ≤ inc.length) (hinclen : inc.length < 2 ^ 64)
    (hTbig : 2 ^ 31 ≤ T) (hTsmall : T < 2 ^ 63)
    (hscan : ∀ n, n ≤ T → Socket.IsContainPattern (inc.take n) pattern < 0)
    (hwrap : Socket.IsContainPattern (inc.take (T + 1)) pattern = 0) :
    ∀ (fuel : Nat) (buf : List Byte) (total : Nat) (bytesleft patternidx : Int) (os : OS),
      buf.length = T + 1 → total ≤ T → bytesleft = ((T + 1 : Nat) : Int) - total →
      buf.take total = inc.take total → os.incoming = inc.drop total →
      (∀ r ∈ os.future, 0 < r.ret ∧ r.ret < 2 ^ 31) →
      4 * (T + 1 - total) + 2 * (inc.length - T) + 2 ≤ os.future.length →
      os.future.length < fuel →
      ∃ os1, Socket.RecvUntil.loop s pattern fuel buf total bytesleft patternidx os
          = .throw .SocketConnectionClosedException os1
        ∧ os1.incoming = [] := by
  intro fuel
  induction fuel with
  | zero => intro buf total bl pidx os _ _ _ _ _ _ _ h; omega
  | succ fuel ih =>
    intro buf total bl pidx os hlen htot hbl hbuf hinc hans hfut hfuel
    have hposv : ∀ r ∈ os.future, 0 < r.ret := fun r hr => (hans r hr).1
    have h0 : ¬ bl ≤ 0 := by omega
    have hinclen0 : 0 < os.incoming.length := by
      rw [hinc]; simp only [List.length_drop]; omega
    obtain ⟨r, bytes, os0, hw, hr⟩ := Socket.RecvTimeoutWrapper_progress s os bl.toNat true
      (by omega) hinclen0 hposv (by omega)
    obtain ⟨a, ha, hra⟩ := Socket.RecvTimeoutWrapper_ret_le s os os0 bl.toNat true r bytes hw
    have hr31 : r < 2 ^ 31 := by
      have := (hans a ha).2
      omega
    have hr31' : r < 2147483648 := by exact_mod_cast hr31
    obtain ⟨h1, h2, h3, h4, ⟨m0, hm0, _, hm2⟩, h5⟩ := Socket.RecvUntil.pass s inc buf total
      bl r bytes os os0 (by rw [hlen]; exact hbl) (by omega) hbuf hinc hw hr
    obtain ⟨_, _, _, hpos, _⟩ := Socket.RecvTimeoutWrapper_ret s os os0 bl.toNat true r bytes hw
    obtain ⟨hrb, _, _, hinc0⟩ := hpos (by omega)
    simp only [if_true] at hinc0
    have hr1 : ¬ r < 0 := by omega
    have hr2 : ¬ r = 0 := by omega
    have hlen0 : os0.future.length = os.future.length - m0 := by rw [← hm0]; simp
    have hans0 : ∀ x ∈ os0.future, 0 < x.ret ∧ x.ret < 2 ^ 31 := by
      intro x hx
      rw [← hm0] at hx
      exact hans x (List.mem_of_mem_drop hx)
    have hrpos : 0 < r.toNat := by omega
    rw [Socket.RecvUntil.loop, if_neg h0, hw]
    simp only [hr1, hr2, if_false]
    by_cases hend : total + r.toNat ≤ T
    · -- the peek stops before the last byte of the buffer: no match is reported
      have hneg := hscan (total + r.toNat) hend
      rw [← h3] at hneg
      obtain ⟨buf2, os2, hrab, m, hm, hdrop⟩ := Socket.RecvAllBuf_progress s os0
        (writeAt buf total bytes) total r.toNat hrpos
        (by rw [writeAt_length _ _ _ (by omega)]; omega)
        (by rw [hinc0, hinc]; simp only [List.length_drop]; omega)
        (fun x hx => (hans0 x hx).1) (by omega)
      obtain ⟨h6, h7, h8, _⟩ := h5 buf2 os2 hrab
      have hlen2 : os2.future.length = os0.future.length - m := by rw [← hdrop]; simp
      have hans2 : ∀ x ∈ os2.future, 0 < x.ret ∧ x.ret < 2 ^ 31 := by
        intro x hx
        rw [← hdrop] at hx
        exact hans0 x (List.mem_of_mem_drop hx)
      simp only [hneg, if_true, hrab]
      exact ih buf2 (total + r.toNat) (bl - r) _ os2 (by omega) hend
        (by rw [hbl]; push_cast; omega) h7 h8 hans2 (by omega) (by omega)
    · -- the peek reaches the last byte: the index reported is 0
      have hfull : total + r.toNat = T + 1 := by omega
      have htot2 : 2 ≤ total := by omega
      have hidx : Socket.IsContainPattern
          ((writeAt buf total bytes).take (total + r.toNat)) pattern = 0 := by
        rw [h3, hfull]; exact hwrap
      obtain ⟨hc1, hc2⟩ := count_wraps total htot2 (by omega)
      have hnn : ¬ ((0 : Int) < 0) := by decide
      simp only [hidx, hnn, if_false, hc1, hc2]
      have hbig : ¬ (2 ^ 64 + 1 - total = 0) := by
        have : total < 2 ^ 64 := by omega
        omega
      obtain ⟨os1, hst, hfin⟩ := Socket.RecvAll.recv_steps_exhaust s (os0.future.length + 1)
        (2 ^ 64 + 1 - total) os0
        (by rw [hinc0, hinc]; simp only [List.length_drop]; omega)
        (fun x hx => (hans0 x hx).1)
        (by rw [hinc0, hinc]; simp only [List.length_drop]; omega) (by omega)
      refine ⟨os1, ?_, hfin⟩
      rw [Socket.RecvAllBuf, if_neg hbig,
        Socket.RecvAll.recv_loop_eq_steps s total _ _ 0 _ 0 os0 (by omega) (by omega)
          (by rw [writeAt_length _ _ _ (by omega)]; omega), hst]
      rfl

/-- The scan for the one-byte pattern `1` passes over zero bytes. -/
theorem Socket.IsContainPattern.scan_zeros (tail : List Byte) :
    ∀ (m i : Nat),
      Socket.IsContainPattern.scan [1] (List.replicate m 0 ++ tail) i 0
        = Socket.IsContainPattern.scan [1] tail (i + m) 0 := by
  intro m
  induction m with
  | zero => intro i; simp
  | succ m ih =>
    intro i
    rw [List.replicate_succ, List.cons_append, Socket.IsContainPattern.scan]
    have h : ¬ (([1] : List Byte)[0]? = some (0 : Byte)) := by decide
    rw [if_neg h, ih (i + 1)]
    congr 1
    omega

/-- In `T` zero bytes followed by the bytes 1, 9, 9, 9 the scan for the
pattern `1` reports nothing on the first `n ≤ T` bytes and reports `T`,
converted to `int`, on the first `T + 1` bytes. -/
theorem Socket.IsContainPattern_zeros (T : Nat) :
    (∀ n, n ≤ T →
        Socket.IsContainPattern ((List.replicate T (0 : Byte) ++ [1, 9, 9, 9]).take n) [1] < 0)
    ∧ Socket.IsContainPattern ((List.replicate T (0 : Byte) ++ [1, 9, 9, 9]).take (T + 1)) [1]
        = toInt32 T
    ∧ Socket.IsContainPattern (List.replicate T (0 : Byte) ++ [1]) [1] = toInt32 T := by
  have hneg1 : ((-1 : Int) < 0) := by decide
  have hlast : Socket.IsContainPattern (List.replicate T (0 : Byte) ++ [1]) [1]
      = toInt32 T := by
    rw [Socket.IsContainPattern]
    have h1 : ¬ (List.replicate T (0 : Byte) ++ [1]).length < ([1] : List Byte).length := by
      simp
    have h2 : ¬ ([1] : List Byte).length = 0 := by simp
    rw [if_neg h1, if_neg (fun h => h2 h.2), if_neg h2,
      Socket.IsContainPattern.scan_zeros [1] T 0]
    simp [Socket.IsContainPattern.scan]
  refine ⟨?_, ?_, hlast⟩
  · intro n hn
    have htake : (List.replicate T (0 : Byte) ++ [1, 9, 9, 9]).take n
        = List.replicate n 0 ++ [] := by
      rw [List.take_append_of_le_length (by simp [hn]), List.take_replicate,
        Nat.min_eq_left hn, List.append_nil]
    rw [htake, Socket.IsContainPattern]
    split_ifs
    · exact hneg1
    · exact hneg1
    · exact hneg1
    · rw [Socket.IsContainPattern.scan_zeros [] n 0]
      simp [Socket.IsContainPattern.scan]
  · have htake : (List.replicate T (0 : Byte) ++ [1, 9, 9, 9]).take (T + 1)
        = List.replicate T 0 ++ [1] := by
      have h1 : min (T + 1) T = T := by omega
      have h2 : T + 1 - T = 1 := by omega
      rw [List.take_append_eq_append_take, List.take_replicate, List.length_replicate, h1, h2]
      rfl
    rw [htake, hlast]

/-- With a buffer of `T + 1` bytes, `T` beyond `int` range with `T` converted to
`int` being 0, on the stream of `T` zero bytes followed by 1, 9, 9, 9 and with
every `recv` delivering up to `2^30` bytes, `RecvUntil` for the pattern `1`
consumes the whole stream and throws `SocketConnectionClosedException`. -/
theorem Socket.RecvUntil_index_wraps (T N : Nat) (hTbig : 2 ^ 31 ≤ T) (hTsmall : T < 2 ^ 63)
    (hwrap : toInt32 (T : Int) = 0) (hN : 4 * T + 14 ≤ N) :
    ∃ os1, exampleSocket.RecvUntil (-1)
        (exampleOS 0 (List.replicate N ⟨2 ^ 30, 0⟩) (List.replicate T 0 ++ [1, 9, 9, 9]))
        [1] (T + 1)
      = .throw .SocketConnectionClosedException os1 ∧ os1.incoming = [] := by
  obtain ⟨hscan, hidx, _⟩ := Socket.IsContainPattern_zeros T
  rw [hwrap] at hidx
  have hinclen : (List.replicate T (0 : Byte) ++ [1, 9, 9, 9]).length = T + 4 := by simp
  obtain ⟨os1, hl, hfin⟩ := Socket.RecvUntil.loop_index_wraps exampleSocket [1]
    (List.replicate T 0 ++ [1, 9, 9, 9]) T (by rw [hinclen]; omega) (by rw [hinclen]; omega)
    hTbig hTsmall hscan hidx (N + 1) (List.replicate (T + 1) 0) 0 ((T + 1 : Nat) : Int) (-1)
    (exampleOS 0 (List.replicate N ⟨2 ^ 30, 0⟩) (List.replicate T 0 ++ [1, 9, 9, 9]))
    (by simp) (by omega) (by simp) (by simp) (by simp [exampleOS])
    (by
      intro r hr
      simp only [exampleOS] at hr
      rw [List.eq_of_mem_replicate hr]
      constructor <;> norm_num)
    (by simp only [exampleOS, hinclen, List.length_replicate]; omega)
    (by simp [exampleOS])
  refine ⟨os1, ?_, hfin⟩
  simp only [Socket.RecvUntil, Socket.RecvUntilBuf, List.length_replicate]
  have hfl : (exampleOS 0 (List.replicate N ⟨2 ^ 30, 0⟩)
      (List.replicate T 0 ++ [1, 9, 9, 9])).future.length = N := by
    simp [exampleOS]
  rw [hfl, hl]

/-- C12 (failing input): with `maxlen = 2^32 + 1`, the pattern `1` and the
stream of `2^32` zero bytes followed by 1, 9, 9, 9, every `recv` delivering up
to `2^30` bytes: the scan of the full buffer finds the pattern at index `2^32`,
which `IsContainPattern` returns as the `int` 0; `RecvUntil` takes it for a
match below `total`, the count `patternidx - (total - 1)` is negative (for
`total = 2^32`: `-4294967295`), the `RecvAll` called with it consumes the whole
stream, also the bytes 9, 9, 9 that were never peeked, and the call throws
`SocketConnectionClosedException`. -/
theorem RecvUntil_match_index_beyond_int :
    (∃ os1, exampleSocket.RecvUntil (-1)
        (exampleOS 0 (List.replicate (2 ^ 35) ⟨2 ^ 30, 0⟩)
          (List.replicate (2 ^ 32) 0 ++ [1, 9, 9, 9]))
        [1] (2 ^ 32 + 1)
      = .throw .SocketConnectionClosedException os1 ∧ os1.incoming = [])
    ∧ Socket.IsContainPattern (List.replicate (2 ^ 32) (0 : Byte) ++ [1]) [1] = 0
    ∧ toSSizeT (toSizeT (toSizeT 0 - toSizeT (((2 ^ 32 : Nat) : Int) - 1))) = -4294967295 := by
  have hwrap : toInt32 ((2 ^ 32 : Nat) : Int) = 0 := by
    simp only [toInt32]; norm_num
  refine ⟨Socket.RecvUntil_index_wraps (2 ^ 32) (2 ^ 35) (by norm_num) (by norm_num) hwrap
    (by norm_num), ?_, ?_⟩
  · rw [(Socket.IsContainPattern_zeros (2 ^ 32)).2.2, hwrap]
  · have := (count_wraps (2 ^ 32) (by norm_num) (by norm_num)).1
    rw [this]
    norm_num

end SocketsLib
